import Mathlib

/-!
# Verification of the BMP image viewer's codec pipeline

A shallow embedding, in Lean 4, of the compression/decompression code of the
`bmp-image-viewer` repository (`src/compressor.py` and `src/bmp_parser.py`),
together with theorems settling the frozen claims about it.

Conventions of the embedding:
* Python `bytes` values become `List ℕ` whose entries are intended to be `< 256`
  (hypotheses state this where it matters).
* Python integers become `ℕ` (all the integers involved are non-negative,
  except the BMP height, which becomes `ℤ`).
* Python code that can raise becomes `Except String α`; the strings follow the
  messages in the source (without the interpolated runtime values).
* Python `while` loops become fuel-indexed structural recursions, where the fuel
  is instantiated at call sites with a bound that the loop provably never
  exhausts, so the definitions stay kernel-computable.
-/

set_option maxRecDepth 8192

namespace BMPViewer

/-- An (R,G,B) pixel, each channel a byte. -/
abbrev Pixel : Type := ℕ × ℕ × ℕ

/-! ## Byte-level helpers: `int.to_bytes(k, 'big')` and `int.from_bytes(_, 'big')` -/
/-- `n.to_bytes(k, 'big')`: the `k`-byte big-endian representation of `n`
(`n % 256^k` if `n` does not fit; CPython would raise `OverflowError` then,
so theorems carry `n < 256^k` hypotheses wherever the value matters). -/
def toBytesBE : ℕ → ℕ → List ℕ
  | 0, _ => []
  | k + 1, n => toBytesBE k (n / 256) ++ [n % 256]

/-- `int.from_bytes(bs, 'big')`. -/
def fromBytesBE (bs : List ℕ) : ℕ :=
  bs.foldl (fun acc b => acc * 256 + b) 0

/-! ## `int.bit_length()` -/
/-- Fuel-indexed helper for Python's `int.bit_length()`; the fuel is
instantiated with the number itself, which bounds the number of halvings. -/
def bitLenAux : ℕ → ℕ → ℕ
  | 0, _ => 0
  | fuel + 1, m => if m = 0 then 0 else bitLenAux fuel (m / 2) + 1

/-- `n.bit_length()`. -/
def bitLen (n : ℕ) : ℕ := bitLenAux n n

/-! ## The sliding-window LZ coder (`_lz_compress` / `_lz_decompress`)

Constants from the source: `window_size = 4095`, `min_match = 4`,
`max_match = 255`, `max_positions_per_key = 32`. -/
/-- The inner match-extension `while` loop of `_lz_compress`.  The fuel is
instantiated with `255` (`max_match`), which the loop never exceeds. -/
def lzMatchLenAux (data : List ℕ) (n cand pos : ℕ) : ℕ → ℕ → ℕ
  | 0, len => len
  | fuel + 1, len =>
      if len < 255 ∧ pos + len < n ∧ data.getD (cand + len) 0 = data.getD (pos + len) 0
      then lzMatchLenAux data n cand pos fuel (len + 1)
      else len

/-- Length of the match between positions `cand` and `pos` of `data`. -/
def lzMatchLen (data : List ℕ) (n cand pos : ℕ) : ℕ :=
  lzMatchLenAux data n cand pos 255 0

/-- The candidate-search `for` loop of `_lz_compress`: candidates are visited
newest-to-oldest (the list passed here is already reversed), positions farther
back than the window are skipped, and the search breaks early once a match of
maximal length is found. -/
def lzSearch (data : List ℕ) (n pos : ℕ) : List ℕ → ℕ × ℕ → ℕ × ℕ
  | [], best => best
  | c :: rest, (bestLen, bestOff) =>
      if pos - c > 4095 then lzSearch data n pos rest (bestLen, bestOff)
      else
        if lzMatchLen data n c pos > bestLen then
          if lzMatchLen data n c pos ≥ 255 then (lzMatchLen data n c pos, pos - c)
          else lzSearch data n pos rest (lzMatchLen data n c pos, pos - c)
        else lzSearch data n pos rest (bestLen, bestOff)

/-- The hash table of `_lz_compress`: a map from 4-byte keys to the (bounded)
list of recent positions, oldest first. -/
def LzTable : Type := List ℕ → List ℕ

/-- `table[k].append(p)` followed by a `popleft` when the deque exceeds
32 entries. -/
def tableAdd (t : LzTable) (k : List ℕ) (p : ℕ) : LzTable :=
  fun q =>
    if q = k then
      if (t k ++ [p]).length > 32 then (t k ++ [p]).tail else t k ++ [p]
    else t q

/-- `for p in range(start, start+count): if p + 4 <= n: table[data[p:p+4]].append(p)`. -/
def tableAddRange (data : List ℕ) (n : ℕ) (t : LzTable) (start : ℕ) : ℕ → LzTable
  | 0 => t
  | c + 1 =>
      tableAddRange data n
        (if start + 4 ≤ n then tableAdd t ((data.drop start).take 4) start else t)
        (start + 1) c

/-- The `(best_len, best_off)` value computed by one iteration of
`_lz_compress` (the source binds it to two locals; naming it keeps the loop
body `let`-free). -/
def lzBest (data : List ℕ) (n pos : ℕ) (t : LzTable) : ℕ × ℕ :=
  if pos + 4 ≤ n then
    lzSearch data n pos ((t ((data.drop pos).take 4)).reverse) (0, 0)
  else (0, 0)

/-- Main loop of `_lz_compress`.  Each iteration advances `pos` by at least 1,
so fuel `n` (instantiated at the top-level call) is never exhausted. -/
def lzLoop (data : List ℕ) (n : ℕ) : ℕ → ℕ → LzTable → List ℕ
  | 0, _, _ => []
  | fuel + 1, pos, t =>
      if pos < n then
        if 4 ≤ (lzBest data n pos t).1 then
          1 :: (toBytesBE 2 (lzBest data n pos t).2 ++ (lzBest data n pos t).1 ::
            lzLoop data n fuel (pos + (lzBest data n pos t).1)
              (tableAddRange data n t pos (lzBest data n pos t).1))
        else
          0 :: data.getD pos 0 ::
            lzLoop data n fuel (pos + 1)
              (if pos + 4 ≤ n then tableAdd t ((data.drop pos).take 4) pos else t)
      else []

/-- `_lz_compress`. -/
def lzCompress (data : List ℕ) : List ℕ :=
  if data = [] then [] else lzLoop data data.length data.length 0 (fun _ => [])

/-- The byte-by-byte back-reference copy of `_lz_decompress`:
`for i in range(length): out.append(out[start+i])`. -/
def lzCopyAux (start : ℕ) : ℕ → ℕ → List ℕ → List ℕ
  | _, 0, out => out
  | i, c + 1, out => lzCopyAux start (i + 1) c (out ++ [out.getD (start + i) 0])

/-- Token-reading loop of `_lz_decompress`, with the output accumulated so
far.  The flag dispatch (`== 0`, `== 1`, else) and the three header-length
checks of the source are realised by the pattern ordering. -/
def lzDecLoop : List ℕ → List ℕ → Except String (List ℕ)
  | [], out => .ok out
  | [0], _ => .error "Corrupt LZ stream: literal missing byte"
  | 0 :: b :: rest', out => lzDecLoop rest' (out ++ [b])
  | 1 :: o1 :: o2 :: len :: rest', out =>
      if fromBytesBE [o1, o2] = 0 ∨ fromBytesBE [o1, o2] > out.length then
        .error "Corrupt LZ stream: invalid offset"
      else lzDecLoop rest' (lzCopyAux (out.length - fromBytesBE [o1, o2]) 0 len out)
  | 1 :: _, _ => .error "Corrupt LZ stream: match header truncated"
  | _ :: _, _ => .error "Corrupt LZ stream: unknown flag"

/-- `_lz_decompress`. -/
def lzDecompress (comp : List ℕ) : Except String (List ℕ) :=
  if comp = [] then .ok [] else lzDecLoop comp []

/-- Checker for the token-shape part of claim C3: walking the compressed
stream, every match token has `1 ≤ offset ≤ 4095`, `offset` not exceeding the
number of bytes already emitted, and `4 ≤ length ≤ 255`.  (This predicate
formalises the claim's wording; it is not part of the source.) -/
def lzTokensOkAux : List ℕ → ℕ → Bool
  | [], _ => true
  | [0], _ => false
  | 0 :: _ :: rest', emitted => lzTokensOkAux rest' (emitted + 1)
  | 1 :: o1 :: o2 :: len :: rest', emitted =>
      (decide (1 ≤ fromBytesBE [o1, o2]) && decide (fromBytesBE [o1, o2] ≤ 4095) &&
       decide (fromBytesBE [o1, o2] ≤ emitted) && decide (4 ≤ len) &&
       decide (len ≤ 255)) &&
      lzTokensOkAux rest' (emitted + len)
  | 1 :: _, _ => false
  | _ :: _, _ => false

/-- Token-shape checker for a whole compressed stream (no bytes emitted yet). -/
def lzTokensOk (comp : List ℕ) : Bool := lzTokensOkAux comp 0

/-! ## Palette construction (`BMPCompressor.compress`, lines 116–131) -/
/-- Row-major flattening of the pixel grid
(`for row in pixel_data: for pix in row: symbols.append(...)`). -/
def flattenGrid (grid : List (List Pixel)) : List Pixel := grid.flatten

/-- Position of the first occurrence of `p` in a list (used to state the
"order of first appearance" part of claim C6). -/
def firstIdx (p : Pixel) : List Pixel → ℕ
  | [] => 0
  | a :: l => if a = p then 0 else firstIdx p l + 1

/-- One step of the palette loop:
`if pix not in index_map: index_map[pix] = len(palette); palette.append(pix)`. -/
def paletteStep : List Pixel × (Pixel → Option ℕ) → Pixel → List Pixel × (Pixel → Option ℕ)
  | (pal, m), pix =>
      match m pix with
      | some _ => (pal, m)
      | none => (pal ++ [pix], fun q => if q = pix then some pal.length else m q)

/-- The palette (in order of first appearance) and the index map built from
the flattened symbol stream. -/
def buildPalette (symbols : List Pixel) : List Pixel × (Pixel → Option ℕ) :=
  symbols.foldl paletteStep ([], fun _ => none)

/-- `indices = [index_map[p] for p in symbols]` (the `getD 0` default is dead
code: every scanned pixel is in the map). -/
def indexStream (symbols : List Pixel) : List ℕ :=
  symbols.map (fun p => ((buildPalette symbols).2 p).getD 0)

/-- Invariant tying the palette and index map to the already-scanned prefix of
the symbol stream. -/
structure PalInv (pre pal : List Pixel) (m : Pixel → Option ℕ) : Prop where
  isSome_iff : ∀ p, (m p).isSome ↔ p ∈ pal
  lookup : ∀ (p : Pixel) (i : ℕ), m p = some i → pal[i]? = some p
  nodup : pal.Nodup
  mem_iff : ∀ p, p ∈ pal ↔ p ∈ pre
  ordered : ∀ (i j : ℕ) (p q : Pixel), pal[i]? = some p → pal[j]? = some q → i < j →
      firstIdx p pre < firstIdx q pre

def cexColor (i : ℕ) : Pixel := (i % 256, i / 256 % 256, i / 65536)

/-- A one-row grid enumerating `2^18 + 1` pairwise-distinct byte-triple
colors. -/
def cexGrid : List (List Pixel) := [(List.range (2 ^ 18 + 1)).map cexColor]

/-! ## Index payloads: byte-aligned (v3) and bit-packed (v5)

`compress` lines 139–180.  Shifts/masks on the bit buffers are rendered as
`/`, `%`, `*` on powers of two: `(buf << k) | low` equals `buf * 2^k + low`
whenever `low < 2^k`, which holds at every use site. -/
/-- `bytes_per_index` (lines 140–145). -/
def bytesPerIndex (paletteCount : ℕ) : ℕ :=
  if paletteCount ≤ 1 then 1 else max 1 ((bitLen (paletteCount - 1) + 7) / 8)

/-- `bits_per_index` (lines 154–158). -/
def bitsPerIndex (paletteCount : ℕ) : ℕ :=
  if paletteCount ≤ 1 then 1 else bitLen (paletteCount - 1)

/-- `indices_bytes`: each index as `bytes_per_index` big-endian bytes. -/
def rawIndicesPayload (bpi : ℕ) (indices : List ℕ) : List ℕ :=
  (indices.map (toBytesBE bpi)).flatten

/-- The `while bit_count >= 8` flush of the v5 packer (lines 168–173); the
fuel is instantiated with `bit_count`, which bounds the iteration count. -/
def flushMSB : ℕ → ℕ → ℕ → List ℕ → List ℕ × ℕ × ℕ
  | 0, buf, cnt, out => (out, buf, cnt)
  | fuel + 1, buf, cnt, out =>
      if 8 ≤ cnt then
        flushMSB fuel (buf % 2 ^ (cnt - 8)) (cnt - 8)
          (out ++ [buf / 2 ^ (cnt - 8) % 256])
      else (out, buf, cnt)

/-- One index of the v5 packing loop (lines 164–173); state is
`(out, bit_buf, bit_count)`. -/
def packStep (b : ℕ) (st : List ℕ × ℕ × ℕ) (idx : ℕ) : List ℕ × ℕ × ℕ :=
  flushMSB (st.2.2 + b) (st.2.1 * 2 ^ b + idx % 2 ^ b) (st.2.2 + b) st.1

/-- Final right-zero-padded byte of the v5 packer (lines 175–178). -/
def packFinish (st : List ℕ × ℕ × ℕ) : List ℕ :=
  if 0 < st.2.2 then st.1 ++ [st.2.1 * 2 ^ (8 - st.2.2) % 256] else st.1

/-- `packed_bits_payload`: MSB-first fixed-width bit packing of the indices. -/
def packBitsMSB (b : ℕ) (indices : List ℕ) : List ℕ :=
  packFinish (indices.foldl (packStep b) ([], 0, 0))

/-- The inner `while bit_count >= bits_per_index and len < expected` loop of
the v5 decoder (`decompress` lines 386–391); state is `(acc, bit_buf,
bit_count)` and the fuel is instantiated with `N - acc.length`, which bounds
the number of appends. -/
def extractMSB (b N : ℕ) : ℕ → ℕ → ℕ → List ℕ → List ℕ × ℕ × ℕ
  | 0, buf, cnt, acc => (acc, buf, cnt)
  | fuel + 1, buf, cnt, acc =>
      if b ≤ cnt ∧ acc.length < N then
        extractMSB b N fuel (buf % 2 ^ (cnt - b)) (cnt - b)
          (acc ++ [buf / 2 ^ (cnt - b) % 2 ^ b])
      else (acc, buf, cnt)

/-- One byte of the v5 unpacking loop (lines 383–391). -/
def unpackStep (b N : ℕ) (st : List ℕ × ℕ × ℕ) (byte : ℕ) : List ℕ × ℕ × ℕ :=
  extractMSB b N (N - st.1.length) (st.2.1 * 256 + byte) (st.2.2 + 8) st.1

/-- `result_indices` of the v5 decoder: MSB-first unpacking of at most `N`
`b`-bit codes. -/
def unpackBitsMSB (b N : ℕ) (packed : List ℕ) : List ℕ :=
  (packed.foldl (unpackStep b N) ([], 0, 0)).1

/-! ### Positional-value helpers for the bit-packing proofs -/
/-- Value of a big-endian digit string in base `B` (`fromBytesBE` is the
`B = 256` case). -/
def baseVal (B : ℕ) (l : List ℕ) : ℕ :=
  l.foldl (fun acc x => acc * B + x) 0

/-- Invariant of the v5 packing fold: the emitted bytes plus the pending bit
buffer hold exactly the big-endian concatenation of the processed codes. -/
def PackInv (b : ℕ) (done : List ℕ) (st : List ℕ × ℕ × ℕ) : Prop :=
  st.2.2 < 8 ∧ st.2.1 < 2 ^ st.2.2 ∧
  fromBytesBE st.1 * 2 ^ st.2.2 + st.2.1 = baseVal (2 ^ b) done ∧
  8 * st.1.length + st.2.2 = b * done.length ∧
  ∀ x ∈ st.1, x < 256

/-- Invariant of the v5 unpacking fold: `D` bits of the padded stream `V`
remain unconsumed, the accumulator holds the first codes, and the bit buffer
holds the consumed-but-unemitted bits. -/
def UnpackInv (b N pad : ℕ) (codes : List ℕ) (V D : ℕ)
    (st : List ℕ × ℕ × ℕ) : Prop :=
  st.1 = codes.take st.1.length ∧
  st.1.length ≤ N ∧
  D + st.2.2 = b * (N - st.1.length) + pad ∧
  st.2.1 = V / 2 ^ D % 2 ^ st.2.2

/-! ## The BMP parser (`src/bmp_parser.py`) -/
/-- Little-endian `int.from_bytes` (short or empty slices give the value of
the available bytes, as in Python). -/
def fromBytesLE (bs : List ℕ) : ℕ :=
  bs.foldr (fun b acc => acc * 256 + b) 0

/-- Signed little-endian read of the 4-byte height field (`signed=True`). -/
def heightFromBytesLE (bs : List ℕ) : ℤ :=
  if 2 ^ (8 * bs.length - 1) ≤ fromBytesLE bs ∧ bs.length ≠ 0 then
    (fromBytesLE bs : ℤ) - 2 ^ (8 * bs.length)
  else (fromBytesLE bs : ℤ)

/-- Row stride: `((bpp * width + 31) // 32) * 4`. -/
def bmpRowSize (bpp width : ℕ) : ℕ := (bpp * width + 31) / 32 * 4

/-- Parsed BMP contents (`BMPParser.metadata`, `color_table`, `pixel_data`). -/
structure BMPResult where
  fileSize : ℕ
  dataOffset : ℕ
  width : ℕ
  height : ℤ
  bpp : ℕ
  colorTable : List Pixel
  pixelData : List (List Pixel)

/-- `_parse_color_table`'s loop: BGR-quad entries (alpha ignored) from fixed
offset `0x36`, failing if a quad is cut short. -/
def readColorTable (data : List ℕ) : ℕ → ℕ → Except String (List Pixel)
  | _, 0 => .ok []
  | i, count + 1 =>
      match (data.drop (54 + i * 4)).take 4 with
      | [bb, gg, rr, _] =>
          match readColorTable data (i + 1) count with
          | .ok rest => .ok ((rr, gg, bb) :: rest)
          | .error e => .error e
      | _ => .error "not enough values to unpack"

/-- One pixel row of `_parse_pixel_data`, for the given bit depth. -/
def parseRowPixels (data : List ℕ) (bpp rowStart width : ℕ)
    (colorTable : List Pixel) : Except String (List Pixel) :=
  if bpp = 24 then
    (List.range width).mapM (fun col =>
      match (data.drop (rowStart + col * 3)).take 3 with
      | [bB, gG, rR] => .ok ((rR, gG, bB) : Pixel)
      | _ => .error "not enough values to unpack")
  else if bpp = 8 then
    (List.range width).mapM (fun col =>
      match data.get? (rowStart + col) with
      | none => .error "IndexError: index out of range"
      | some colorIndex =>
          match colorTable.get? colorIndex with
          | none => .error "IndexError: list index out of range"
          | some p => .ok p)
  else if bpp = 4 then
    (List.range width).mapM (fun col =>
      match data.get? (rowStart + col / 2) with
      | none => .error "IndexError: index out of range"
      | some byte =>
          match colorTable.get? (if col % 2 = 0 then byte / 16 else byte % 16) with
          | none => .error "IndexError: list index out of range"
          | some p => .ok p)
  else if bpp = 1 then
    (List.range width).mapM (fun col =>
      match data.get? (rowStart + col / 8) with
      | none => .error "IndexError: index out of range"
      | some byte =>
          match colorTable.get? (byte / 2 ^ (7 - col % 8) % 2) with
          | none => .error "IndexError: list index out of range"
          | some p => .ok p)
  else .error "Unsupported bpp"

/-- The row loop of `_parse_pixel_data` (bottom-up rows read in reverse). -/
def parseRows (data : List ℕ) (bpp offset rowSize width absH : ℕ)
    (bottomUp : Bool) (colorTable : List Pixel) :
    Except String (List (List Pixel)) :=
  (List.range absH).mapM (fun row =>
    parseRowPixels data bpp
      (offset + (if bottomUp then (absH - row - 1) * rowSize else row * rowSize))
      width colorTable)

/-- `BMPParser.load` on an in-memory byte buffer: header, optional color
table, pixel rows. -/
def parseBMP (data : List ℕ) : Except String BMPResult :=
  if data.take 2 ≠ [66, 77] then .error "Not a BMP file"
  else
    match (if fromBytesLE ((data.drop 28).take 2) ∈ ([1, 4, 8] : List ℕ) then
        readColorTable data 0 (2 ^ fromBytesLE ((data.drop 28).take 2))
      else .ok []) with
    | .error e => .error e
    | .ok colorTable =>
        match parseRows data (fromBytesLE ((data.drop 28).take 2))
            (fromBytesLE ((data.drop 10).take 4))
            (bmpRowSize (fromBytesLE ((data.drop 28).take 2))
              (fromBytesLE ((data.drop 18).take 4)))
            (fromBytesLE ((data.drop 18).take 4))
            (heightFromBytesLE ((data.drop 22).take 4)).natAbs
            (decide (0 < heightFromBytesLE ((data.drop 22).take 4)))
            colorTable with
        | .error e => .error e
        | .ok rows =>
            .ok ⟨fromBytesLE ((data.drop 2).take 4),
              fromBytesLE ((data.drop 10).take 4),
              fromBytesLE ((data.drop 18).take 4),
              heightFromBytesLE ((data.drop 22).take 4),
              fromBytesLE ((data.drop 28).take 2), colorTable, rows⟩

/-! ## The legacy LZW codec (version 2)

`BMPCompressor._lzw_pack_indices_to_bits` (encode, lines 249–295) and the
version-2 branch of `BMPDecompressor.decompress` (decode, lines 487–549).
These use genuine bitwise or/shift (`|||`, `<<<`, `>>>`): unlike the other
coders, the encoder can emit codes wider than the current code width, so the
or is not always a disjoint add. -/
/-- `self.max_dict_size = 1 << 18`. -/
def maxDictSize : ℕ := 2 ^ 18

/-- The `while bit_count >= 8` flush inside `write_code` (LSB-first). -/
def lzwFlush : ℕ → ℕ → ℕ → List ℕ → List ℕ × ℕ × ℕ
  | 0, buf, cnt, out => (out, buf, cnt)
  | fuel + 1, buf, cnt, out =>
      if 8 ≤ cnt then lzwFlush fuel (buf >>> 8) (cnt - 8) (out ++ [buf % 256])
      else (out, buf, cnt)

/-- `write_code(code, width)`: or the code into the bit buffer at the current
position, then flush whole bytes. -/
def lzwWriteCode (code width buf cnt : ℕ) (out : List ℕ) : List ℕ × ℕ × ℕ :=
  lzwFlush (cnt + width) (buf ||| (code <<< cnt)) (cnt + width) out

/-- Main loop of `_lzw_pack_indices_to_bits` over the remaining symbols,
carrying `(s, dictionary, dict_size, code_width, bit_buf, bit_count, out)`.
On exhaustion the final code for `s` is written and the partial byte
flushed. -/
def lzwEncLoop (maxDict : ℕ) :
    List ℕ → List ℕ → (List ℕ → Option ℕ) → ℕ → ℕ → ℕ → ℕ → List ℕ → List ℕ
  | [], s, dict, _, codeWidth, buf, cnt, out =>
      match lzwWriteCode ((dict s).getD 0) codeWidth buf cnt out with
      | (out', buf', cnt') => if 0 < cnt' then out' ++ [buf' % 256] else out'
  | c :: rest, s, dict, dictSize, codeWidth, buf, cnt, out =>
      if (dict (s ++ [c])).isSome then
        lzwEncLoop maxDict rest (s ++ [c]) dict dictSize codeWidth buf cnt out
      else
        match lzwWriteCode ((dict s).getD 0) codeWidth buf cnt out with
        | (out', buf', cnt') =>
            if dictSize < maxDict then
              lzwEncLoop maxDict rest [c]
                (fun t => if t = s ++ [c] then some dictSize else dict t)
                (dictSize + 1)
                (if dictSize + 1 = 2 ^ codeWidth then codeWidth + 1 else codeWidth)
                buf' cnt' out'
            else
              lzwEncLoop maxDict rest [c] dict dictSize codeWidth buf' cnt' out'

/-- `_lzw_pack_indices_to_bits` (the initial dictionary holds the single
symbols `0 .. max(data)`). -/
def lzwPackIndicesToBits (maxDict : ℕ) (data : List ℕ) : List ℕ :=
  match data with
  | [] => []
  | d :: rest =>
      lzwEncLoop maxDict rest [d]
        (fun t => match t with
          | [i] => if i < data.foldl max 0 + 1 then some i else none
          | _ => none)
        (data.foldl max 0 + 1)
        (max 1 (bitLen (data.foldl max 0 + 1 - 1)))
        0 0 []

/-- `read_bits(n)` of the v2 decoder (LSB-first), with byte-pulling fuel
instantiated at `n` (each pull adds 8 bits, so at most `n` pulls are ever
needed for `n ≥ 1`). -/
def readBitsAux (packed : List ℕ) (n : ℕ) : ℕ → ℕ → ℕ → ℕ → Option (ℕ × ℕ × ℕ × ℕ)
  | 0, buf, cnt, pos =>
      if cnt < n then none
      else some (buf % 2 ^ n, buf >>> n, cnt - n, pos)
  | fuel + 1, buf, cnt, pos =>
      if cnt < n then
        if pos < packed.length then
          readBitsAux packed n fuel (buf ||| (packed.getD pos 0 <<< cnt)) (cnt + 8) (pos + 1)
        else none
      else some (buf % 2 ^ n, buf >>> n, cnt - n, pos)

/-- `read_bits(n)` with state `(bit_buf, bit_count, byte_pos)`. -/
def readBits (packed : List ℕ) (n buf cnt pos : ℕ) : Option (ℕ × ℕ × ℕ × ℕ) :=
  readBitsAux packed n n buf cnt pos

/-- The `while True` decode loop of the version-2 branch, carrying
`(dictionary, dict_size, code_width, prev_code, bit_buf, bit_count, byte_pos,
result_indices)`.  Fuel is instantiated at `8 * len(packed) + 1`; every
iteration consumes at least one bit, so exhaustion is unreachable. -/
def lzwDecLoop (maxDict : ℕ) (packed : List ℕ) :
    ℕ → (ℕ → Option (List ℕ)) → ℕ → ℕ → ℕ → ℕ → ℕ → ℕ → List ℕ →
      Except String (List ℕ)
  | 0, _, _, _, _, _, _, _, _ => .error "LZW decoder fuel exhausted"
  | fuel + 1, dict, dictSize, codeWidth, prev, buf, cnt, pos, acc =>
      match readBits packed
          (if dictSize = 2 ^ codeWidth then codeWidth + 1 else codeWidth)
          buf cnt pos with
      | none => .ok acc
      | some (code, buf', cnt', pos') =>
          match dict code with
          | some entry =>
              lzwDecLoop maxDict packed fuel
                (if dictSize < maxDict then
                  fun t => if t = dictSize then
                    some ((dict prev).getD [] ++ [entry.getD 0 0]) else dict t
                 else dict)
                (if dictSize < maxDict then dictSize + 1 else dictSize)
                (if dictSize = 2 ^ codeWidth then codeWidth + 1 else codeWidth)
                code buf' cnt' pos' (acc ++ entry)
          | none =>
              if code = dictSize then
                match dict prev with
                | none => .error "KeyError: prev_code"
                | some prevEntry =>
                    lzwDecLoop maxDict packed fuel
                      (if dictSize < maxDict then
                        fun t => if t = dictSize then
                          some (prevEntry ++
                            [(prevEntry ++ [prevEntry.getD 0 0]).getD 0 0])
                        else dict t
                       else dict)
                      (if dictSize < maxDict then dictSize + 1 else dictSize)
                      (if dictSize = 2 ^ codeWidth then codeWidth + 1 else codeWidth)
                      code buf' cnt' pos'
                      (acc ++ (prevEntry ++ [prevEntry.getD 0 0]))
              else .error "Bad compressed code"

/-- The version-2 index decoding: first code, then the adaptive loop.  A
payload too short for even the first code yields `[]` (the source then builds
the all-black grid directly; reshaping `[]` gives the same rows). -/
def lzwDecodePayload (maxDict pl : ℕ) (packed : List ℕ) : Except String (List ℕ) :=
  match readBits packed (max 1 (bitLen (pl - 1))) 0 0 0 with
  | none => .ok []
  | some (first, buf, cnt, pos) =>
      if first < pl then
        lzwDecLoop maxDict packed (8 * packed.length + 1)
          (fun c => if c < pl then some [c] else none)
          pl (max 1 (bitLen (pl - 1))) first buf cnt pos [first]
      else .error "Corrupt compressed data: first code invalid"

/-! ## `BMPCompressor.compress` (lines 115–247) -/
/-- The magic constant `b"CMPT365"`. -/
def magicBytes : List ℕ := [67, 77, 80, 84, 51, 54, 53]

def gridPalette (grid : List (List Pixel)) : List Pixel :=
  (buildPalette (flattenGrid grid)).1

def gridIndices (grid : List (List Pixel)) : List ℕ :=
  indexStream (flattenGrid grid)

/-- `width = len(pixel_data[0]) if height > 0 else 0`. -/
def gridWidth (grid : List (List Pixel)) : ℕ :=
  if 0 < grid.length then (grid.getD 0 []).length else 0

def gridBpi (grid : List (List Pixel)) : ℕ :=
  bytesPerIndex (gridPalette grid).length

def gridBitspi (grid : List (List Pixel)) : ℕ :=
  bitsPerIndex (gridPalette grid).length

def gridRawPayload (grid : List (List Pixel)) : List ℕ :=
  rawIndicesPayload (gridBpi grid) (gridIndices grid)

def gridPackedPayload (grid : List (List Pixel)) : List ℕ :=
  packBitsMSB (gridBitspi grid) (gridIndices grid)

def gridV6Payload (grid : List (List Pixel)) : List ℕ :=
  lzCompress (gridRawPayload grid)

/-- `base_header = 7 + 1 + 4 + 4 + 4 + 4 + (len(palette) * 3)`. -/
def baseHeader (grid : List (List Pixel)) : ℕ :=
  7 + 1 + 4 + 4 + 4 + 4 + (gridPalette grid).length * 3

/-- The candidate total size computed for each version (lines 184–193). -/
def candSize (grid : List (List Pixel)) (orig : List ℕ) : ℕ → ℕ
  | 3 => baseHeader grid + 1 + 4 + (gridRawPayload grid).length
  | 5 => baseHeader grid + 1 + 4 + (gridPackedPayload grid).length
  | 6 => baseHeader grid + 1 + 4 + (gridV6Payload grid).length
  | _ => 7 + 1 + 4 + 4 + 4 + 4 + 4 + orig.length

/-- Python's `min(candidates, key=lambda x: x[1])`: first pair with minimal
second component. -/
def minBySnd : List (ℕ × ℕ) → ℕ × ℕ → ℕ × ℕ
  | [], best => best
  | c :: rest, best => minBySnd rest (if c.2 < best.2 then c else best)

/-- `(chosen_version, chosen_size)` over `[(3,·),(5,·),(6,·),(4,·)]`. -/
def chosenPair (grid : List (List Pixel)) (orig : List ℕ) : ℕ × ℕ :=
  minBySnd [(5, candSize grid orig 5), (6, candSize grid orig 6),
    (4, candSize grid orig 4)] (3, candSize grid orig 3)

/-- The version actually written: the minimum-size candidate, forced to 4
(RawEmbed) when even that does not beat the original size (lines 197–199). -/
def finalVersion (grid : List (List Pixel)) (orig : List ℕ) : ℕ :=
  if orig.length ≤ (chosenPair grid orig).2 then 4 else (chosenPair grid orig).1

/-- The container bytes written for a given version (lines 202–233). -/
def compressContainer (grid : List (List Pixel)) (orig : List ℕ) (version : ℕ) :
    List ℕ :=
  magicBytes ++ [version] ++ toBytesBE 4 orig.length ++
  toBytesBE 4 (gridWidth grid) ++ toBytesBE 4 grid.length ++
  (if version = 4 then toBytesBE 4 0
   else toBytesBE 4 (gridPalette grid).length ++
     (gridPalette grid).flatMap (fun p => [p.1, p.2.1, p.2.2])) ++
  (if version = 3 then
    gridBpi grid :: (toBytesBE 4 (gridRawPayload grid).length ++ gridRawPayload grid)
   else if version = 5 then
    gridBitspi grid :: (toBytesBE 4 (gridPackedPayload grid).length ++ gridPackedPayload grid)
   else if version = 6 then
    gridBpi grid :: (toBytesBE 4 (gridV6Payload grid).length ++ gridV6Payload grid)
   else toBytesBE 4 orig.length ++ orig)

/-- `BMPCompressor.compress`: the bytes written to the output file. -/
def compress (grid : List (List Pixel)) (orig : List ℕ) : List ℕ :=
  compressContainer grid orig (finalVersion grid orig)

/-! ## `BMPDecompressor.decompress` (lines 299–567) -/
/-- `palette[i] if 0 <= i < len(palette) else (0,0,0)` (v3/v5/v6 branches). -/
def pixelOf (palette : List Pixel) (i : ℕ) : Pixel :=
  if i < palette.length then palette.getD i (0, 0, 0) else (0, 0, 0)

/-- The strict mapping of the v2 branch (`palette[i]`, no guard): raises on
an out-of-range index. -/
def mapStrict (palette : List Pixel) : List ℕ → Except String (List Pixel)
  | [] => .ok []
  | i :: rest =>
      if i < palette.length then
        match mapStrict palette rest with
        | .ok tail => .ok (palette.getD i (0, 0, 0) :: tail)
        | .error e => .error e
      else .error "IndexError: list index out of range"

/-- One output row of the reshape loop: pixels past the decoded data are
black. -/
def reshapeRow (pixels : List Pixel) (idx0 w : ℕ) : List Pixel :=
  (List.range w).map (fun c =>
    if idx0 + c < pixels.length then pixels.getD (idx0 + c) (0, 0, 0) else (0, 0, 0))

/-- The shared reshape loop: `height` rows of `width` pixels, black-filled
past the end of the decoded pixel list. -/
def reshape (pixels : List Pixel) (w h : ℕ) : List (List Pixel) :=
  (List.range h).map (fun r => reshapeRow pixels (r * w) w)

/-- `int.from_bytes(data[pos:pos+4], 'big')`. -/
def readBE4 (data : List ℕ) (pos : ℕ) : ℕ :=
  fromBytesBE ((data.drop pos).take 4)

/-- The palette-reading loop of `decompress` (three bytes per entry). -/
def readPalette : ℕ → List ℕ → Except String (List Pixel)
  | 0, _ => .ok []
  | count + 1, r :: g :: b :: rest =>
      match readPalette count rest with
      | .ok tail => .ok ((r, g, b) :: tail)
      | .error e => .error e
  | _ + 1, _ => .error "IndexError: index out of range"

/-- Fixed-width big-endian chunk decoding of the v3/v6 payload
(`int.from_bytes(packed[i:i+k])` for `i = 0, k, 2k, ...`); fuel is the list
length, which bounds the iteration count for `k ≥ 1` (`k = 0` is rejected
before this is reached). -/
def decodeChunksAux (k : ℕ) : ℕ → List ℕ → List ℕ
  | 0, _ => []
  | _ + 1, [] => []
  | fuel + 1, x :: xs => fromBytesBE ((x :: xs).take k) :: decodeChunksAux k fuel ((x :: xs).drop k)

def decodeChunks (k : ℕ) (l : List ℕ) : List ℕ := decodeChunksAux k l.length l

/-- The version-3 branch (raw byte-aligned indices). -/
def decodeV3 (rest : List ℕ) (palette : List Pixel) (w h os : ℕ) :
    Except String (List (List Pixel) × ℕ × ℕ × ℕ) :=
  match rest with
  | [] => .error "Corrupt file: missing bytes_per_index/payload length"
  | bpi :: rest1 =>
      if rest1.length < 4 then .error "Corrupt file: missing payload length"
      else if (rest1.drop 4).length < fromBytesBE (rest1.take 4) then
        .error "Corrupt file: truncated payload"
      else if bpi = 0 then .error "integer division or modulo by zero"
      else if ((rest1.drop 4).take (fromBytesBE (rest1.take 4))).length % bpi ≠ 0 then
        .error "Corrupt payload: indices length not multiple of bytes_per_index"
      else
        .ok (reshape ((decodeChunks bpi ((rest1.drop 4).take (fromBytesBE (rest1.take 4)))).map
          (pixelOf palette)) w h, w, h, os)

/-- The version-5 branch (bit-packed indices). -/
def decodeV5 (rest : List ℕ) (palette : List Pixel) (w h os : ℕ) :
    Except String (List (List Pixel) × ℕ × ℕ × ℕ) :=
  match rest with
  | [] => .error "Corrupt file: missing bits_per_index/payload length"
  | bits :: rest1 =>
      if rest1.length < 4 then .error "Corrupt file: missing payload length"
      else if (rest1.drop 4).length < fromBytesBE (rest1.take 4) then
        .error "Corrupt file: truncated payload"
      else if (unpackBitsMSB bits (w * h)
          ((rest1.drop 4).take (fromBytesBE (rest1.take 4)))).length < w * h then
        .error "Corrupt payload: not enough indices in bit-packed payload"
      else
        .ok (reshape (((unpackBitsMSB bits (w * h)
          ((rest1.drop 4).take (fromBytesBE (rest1.take 4)))).take (w * h)).map
          (pixelOf palette)) w h, w, h, os)

/-- The version-6 branch (LZ-compressed byte-aligned indices). -/
def decodeV6 (rest : List ℕ) (palette : List Pixel) (w h os : ℕ) :
    Except String (List (List Pixel) × ℕ × ℕ × ℕ) :=
  match rest with
  | [] => .error "Corrupt file: missing bytes_per_index/payload length"
  | bpi :: rest1 =>
      if rest1.length < 4 then .error "Corrupt file: missing payload length"
      else if (rest1.drop 4).length < fromBytesBE (rest1.take 4) then
        .error "Corrupt file: truncated payload"
      else
        match lzDecompress ((rest1.drop 4).take (fromBytesBE (rest1.take 4))) with
        | .error e => .error e
        | .ok raw =>
            if bpi = 0 then .error "integer division or modulo by zero"
            else if raw.length % bpi ≠ 0 then
              .error "Corrupt payload: indices length not multiple of bytes_per_index"
            else
              .ok (reshape ((decodeChunks bpi raw).map (pixelOf palette)) w h, w, h, os)

/-- The version-4 branch: reparse the embedded BMP bytes (the source routes
them through a temporary file and `BMPParser`; here the parser runs on the
byte buffer directly). -/
def decodeV4 (rest : List ℕ) (os : ℕ) :
    Except String (List (List Pixel) × ℕ × ℕ × ℕ) :=
  if rest.length < 4 then .error "Corrupt file: missing payload length"
  else if (rest.drop 4).length < fromBytesBE (rest.take 4) then
    .error "Corrupt file: truncated payload"
  else
    match parseBMP ((rest.drop 4).take (fromBytesBE (rest.take 4))) with
    | .error e => .error e
    | .ok r => .ok (r.pixelData, r.width, r.height.natAbs, os)

/-- The version-2 branch: legacy LZW decode, strict palette mapping,
reshape. -/
def decodeV2 (rest : List ℕ) (palette : List Pixel) (paletteLen w h os : ℕ) :
    Except String (List (List Pixel) × ℕ × ℕ × ℕ) :=
  if rest.length < 4 then .error "Corrupt file: missing payload length"
  else if (rest.drop 4).length < fromBytesBE (rest.take 4) then
    .error "Corrupt file: truncated payload"
  else
    match lzwDecodePayload maxDictSize paletteLen
        ((rest.drop 4).take (fromBytesBE (rest.take 4))) with
    | .error e => .error e
    | .ok idxs =>
        match mapStrict palette idxs with
        | .error e => .error e
        | .ok pixels => .ok (reshape pixels w h, w, h, os)

/-- `BMPDecompressor.decompress` on the container bytes. -/
def decompress (data : List ℕ) :
    Except String (List (List Pixel) × ℕ × ℕ × ℕ) :=
  if data.take 7 ≠ magicBytes then .error "Not a CMPT365 file"
  else
    match data.get? 7 with
    | none => .error "IndexError: index out of range"
    | some version =>
        if version ∉ ([2, 3, 4, 5, 6] : List ℕ) then
          .error "Unsupported CMPT365 version"
        else
          match readPalette (readBE4 data 20) (data.drop 24) with
          | .error e => .error e
          | .ok palette =>
              if version = 3 then
                decodeV3 ((data.drop 24).drop (3 * readBE4 data 20)) palette
                  (readBE4 data 12) (readBE4 data 16) (readBE4 data 8)
              else if version = 5 then
                decodeV5 ((data.drop 24).drop (3 * readBE4 data 20)) palette
                  (readBE4 data 12) (readBE4 data 16) (readBE4 data 8)
              else if version = 6 then
                decodeV6 ((data.drop 24).drop (3 * readBE4 data 20)) palette
                  (readBE4 data 12) (readBE4 data 16) (readBE4 data 8)
              else if version = 4 then
                decodeV4 ((data.drop 24).drop (3 * readBE4 data 20)) (readBE4 data 8)
              else
                decodeV2 ((data.drop 24).drop (3 * readBE4 data 20)) palette
                  (readBE4 data 20) (readBE4 data 12) (readBE4 data 16) (readBE4 data 8)

/-! ## Claim C4: the legacy LZW decoder does not mirror the encoder -/
/-- A version-2 container holding the LZW encoding of the index stream
`[0,1,2,0,1]` over a 3-color palette (width 5, height 1). -/
def c4Container : List ℕ :=
  magicBytes ++ [2] ++ toBytesBE 4 1000 ++ toBytesBE 4 5 ++ toBytesBE 4 1 ++
  toBytesBE 4 3 ++ [10, 10, 10, 20, 20, 20, 30, 30, 30] ++
  toBytesBE 4 (lzwPackIndicesToBits maxDictSize [0, 1, 2, 0, 1]).length ++
  lzwPackIndicesToBits maxDictSize [0, 1, 2, 0, 1]

/-! ## Parsing back a written container -/
/-- General shape of every container `compress` writes: shared header and
palette section followed by a version-specific tail. -/
def mkContainer (version os w h : ℕ) (palette : List Pixel) (tail : List ℕ) :
    List ℕ :=
  magicBytes ++ [version] ++ toBytesBE 4 os ++ toBytesBE 4 w ++ toBytesBE 4 h ++
  toBytesBE 4 palette.length ++ palette.flatMap (fun p => [p.1, p.2.1, p.2.2]) ++ tail

/-- A concrete 2-by-2 grid whose compressed container (the selector picks
version 5 for it) exercises claim C9. -/
def c9Grid : List (List Pixel) := [[(255, 0, 0), (0, 255, 0)], [(0, 0, 255), (255, 255, 255)]]

def c9Data : List ℕ := compress c9Grid (List.replicate 100 7)

def c9Res : List (List Pixel) × ℕ × ℕ × ℕ := (c9Grid, 2, 2, 100)

/-- A version-3 container with a one-entry palette whose second index byte
(5) is out of range, so its pixel decodes to black. -/
def c10Data : List ℕ := mkContainer 3 10 2 1 [(7, 8, 9)] ([1] ++ toBytesBE 4 2 ++ [0, 5])

def c10Res : List (List Pixel) × ℕ × ℕ × ℕ := ([[(7, 8, 9), (0, 0, 0)]], 2, 1, 10)

/-- A version-5 container (1 bit per index, declared payload length 0, grid
2 by 2) whose payload decodes to zero indices: the claim says this must not
fail, but the v5 branch raises instead of black-filling. -/
def c5Data : List ℕ := mkContainer 5 10 2 2 [(1, 2, 3)] ([1] ++ toBytesBE 4 0)

/-- A 58-byte 1-by-1 24-bpp bottom-up BMP whose single pixel is stored as
B,G,R = 10,20,30. -/
def c7Bmp : List ℕ :=
  [66, 77, 58, 0, 0, 0, 0, 0, 0, 0, 54, 0, 0, 0, 40, 0, 0, 0,
   1, 0, 0, 0, 1, 0, 0, 0, 1, 0, 24, 0,
   0, 0, 0, 0, 0, 0, 0, 0, 0, 0, 0, 0, 0, 0, 0, 0, 0, 0, 0, 0, 0, 0, 0, 0,
   10, 20, 30, 0]

def c7Res : BMPResult := ⟨58, 54, 1, 1, 24, [], [[(30, 20, 10)]]⟩

def c1Grid : List (List Pixel) := [[(1, 2, 3), (4, 5, 6)], [(1, 2, 3), (4, 5, 6)]]

def c1Orig : List ℕ := List.replicate 100 9

/-! # Theorems -/

theorem toBytesBE_length (k n : ℕ) : (toBytesBE k n).length = k := by
  induction k generalizing n with
  | zero => rfl
  | succ k ih => simp [toBytesBE, ih]

theorem fromBytesBE_append_byte (bs : List ℕ) (b : ℕ) :
    fromBytesBE (bs ++ [b]) = fromBytesBE bs * 256 + b := by
  simp [fromBytesBE]

theorem fromBytesBE_toBytesBE (k n : ℕ) :
    fromBytesBE (toBytesBE k n) = n % 256 ^ k := by
  induction k generalizing n with
  | zero => simp [toBytesBE, fromBytesBE, Nat.mod_one]
  | succ k ih =>
      rw [toBytesBE, fromBytesBE_append_byte, ih, pow_succ,
        mul_comm ((256 : ℕ) ^ k) 256, Nat.mod_mul]
      ring

theorem fromBytesBE_toBytesBE_of_lt {k n : ℕ} (h : n < 256 ^ k) :
    fromBytesBE (toBytesBE k n) = n := by
  rw [fromBytesBE_toBytesBE, Nat.mod_eq_of_lt h]

/-- Each byte produced by `toBytesBE` is `< 256`. -/
theorem toBytesBE_lt (k n : ℕ) : ∀ b ∈ toBytesBE k n, b < 256 := by
  induction k generalizing n with
  | zero => simp [toBytesBE]
  | succ k ih =>
      intro b hb
      rw [toBytesBE] at hb
      rcases List.mem_append.1 hb with h | h
      · exact ih _ _ h
      · simp only [List.mem_singleton] at h
        subst h
        exact Nat.mod_lt _ (by norm_num)

theorem bitLenAux_lt_two_pow : ∀ fuel m, m ≤ fuel → m < 2 ^ bitLenAux fuel m
  | 0, m, h => by
      interval_cases m
      simp [bitLenAux]
  | fuel + 1, m, h => by
      rw [bitLenAux]
      split
      · omega
      · have hm : m / 2 ≤ fuel := by omega
        have := bitLenAux_lt_two_pow fuel (m / 2) hm
        have h2 : m ≤ 2 * (m / 2) + 1 := by omega
        calc m ≤ 2 * (m / 2) + 1 := h2
          _ < 2 * 2 ^ bitLenAux fuel (m / 2) := by omega
          _ = 2 ^ (bitLenAux fuel (m / 2) + 1) := by ring

/-- `n < 2 ^ n.bit_length()`. -/
theorem lt_two_pow_bitLen (n : ℕ) : n < 2 ^ bitLen n :=
  bitLenAux_lt_two_pow n n le_rfl

/-! ### Correctness of the LZ coder -/
theorem getD_take_of_lt (l : List ℕ) {j m : ℕ} (h : j < m) (d : ℕ) :
    (l.take m).getD j d = l.getD j d := by
  simp [List.getD_eq_getElem?_getD, List.getElem?_take_of_lt h]

theorem take_succ_getD (l : List ℕ) {m : ℕ} (h : m < l.length) (d : ℕ) :
    l.take (m + 1) = l.take m ++ [l.getD m d] := by
  have hx : l[m]? = some l[m] := List.getElem?_eq_getElem h
  rw [List.take_succ, hx, List.getD_eq_getElem?_getD, hx]
  rfl

theorem lzMatchLenAux_le (data : List ℕ) (n c pos : ℕ) :
    ∀ fuel len, len ≤ 255 → lzMatchLenAux data n c pos fuel len ≤ 255
  | 0, len, h => h
  | fuel + 1, len, h => by
      rw [lzMatchLenAux]
      split
      · exact lzMatchLenAux_le data n c pos fuel (len + 1) (by omega)
      · exact h

theorem lzMatchLenAux_ge (data : List ℕ) (n c pos : ℕ) :
    ∀ fuel len, len ≤ lzMatchLenAux data n c pos fuel len
  | 0, _ => le_rfl
  | fuel + 1, len => by
      rw [lzMatchLenAux]
      split
      · exact le_trans (by omega) (lzMatchLenAux_ge data n c pos fuel (len + 1))
      · exact le_rfl

theorem lzMatchLenAux_within (data : List ℕ) (n c pos : ℕ) :
    ∀ fuel len, pos + len ≤ n → pos + lzMatchLenAux data n c pos fuel len ≤ n
  | 0, _, h => h
  | fuel + 1, len, h => by
      rw [lzMatchLenAux]
      split
      · next hcond => exact lzMatchLenAux_within data n c pos fuel (len + 1) (by omega)
      · exact h

theorem lzMatchLenAux_eq (data : List ℕ) (n c pos : ℕ) :
    ∀ fuel len i, len ≤ i → i < lzMatchLenAux data n c pos fuel len →
      data.getD (c + i) 0 = data.getD (pos + i) 0
  | 0, len, i, hle, hlt => absurd hlt (by rw [lzMatchLenAux]; omega)
  | fuel + 1, len, i, hle, hlt => by
      rw [lzMatchLenAux] at hlt
      split at hlt
      · next hcond =>
          rcases eq_or_lt_of_le hle with rfl | hgt
          · exact hcond.2.2
          · exact lzMatchLenAux_eq data n c pos fuel (len + 1) i hgt hlt
      · omega

/-- The candidate search either leaves the initial best untouched or returns a
match found at one of the listed candidate positions, within the window. -/
theorem lzSearch_spec (data : List ℕ) (n pos : ℕ) :
    ∀ cands best, lzSearch data n pos cands best = best ∨
      ∃ c ∈ cands, pos - c ≤ 4095 ∧
        lzSearch data n pos cands best = (lzMatchLen data n c pos, pos - c)
  | [], best => Or.inl rfl
  | c :: rest, (bestLen, bestOff) => by
      rw [lzSearch]
      split
      · rcases lzSearch_spec data n pos rest (bestLen, bestOff) with h | ⟨c', hc', hw, hr⟩
        · exact Or.inl h
        · exact Or.inr ⟨c', List.mem_cons_of_mem _ hc', hw, hr⟩
      · next hwin =>
          split
          · next hgt =>
              split
              · exact Or.inr ⟨c, List.mem_cons_self .., by omega, rfl⟩
              · rcases lzSearch_spec data n pos rest
                    (lzMatchLen data n c pos, pos - c) with h | ⟨c', hc', hw, hr⟩
                · exact Or.inr ⟨c, List.mem_cons_self .., by omega, h⟩
                · exact Or.inr ⟨c', List.mem_cons_of_mem _ hc', hw, hr⟩
          · rcases lzSearch_spec data n pos rest (bestLen, bestOff) with h | ⟨c', hc', hw, hr⟩
            · exact Or.inl h
            · exact Or.inr ⟨c', List.mem_cons_of_mem _ hc', hw, hr⟩

theorem tableAdd_mem {t : LzTable} {k : List ℕ} {p : ℕ} {q : List ℕ} {x : ℕ}
    (h : x ∈ tableAdd t k p q) : x ∈ t q ∨ x = p := by
  unfold tableAdd at h
  split at h
  · next heq =>
      subst heq
      split at h
      · have := List.tail_subset _ h
        rcases List.mem_append.1 this with h' | h'
        · exact Or.inl h'
        · simp at h'; exact Or.inr h'
      · rcases List.mem_append.1 h with h' | h'
        · exact Or.inl h'
        · simp at h'; exact Or.inr h'
  · exact Or.inl h

theorem tableAddRange_mem (data : List ℕ) (n : ℕ) :
    ∀ c t start q x, x ∈ tableAddRange data n t start c q →
      x ∈ t q ∨ (start ≤ x ∧ x < start + c)
  | 0, _, _, _, _, h => Or.inl h
  | c + 1, t, start, q, x, h => by
      rw [tableAddRange] at h
      rcases tableAddRange_mem data n c _ (start + 1) q x h with h' | h'
      · split at h'
        · rcases tableAdd_mem h' with h'' | h''
          · exact Or.inl h''
          · exact Or.inr ⟨by omega, by omega⟩
        · exact Or.inl h'
      · exact Or.inr ⟨by omega, by omega⟩

/-- Replaying an overlapping back-reference copy on a faithful prefix of `data`
extends the prefix. -/
theorem lzCopyAux_spec (data : List ℕ) (c pos : ℕ) (hc : c < pos) :
    ∀ count i, pos + i + count ≤ data.length →
      (∀ m, i ≤ m → m < i + count → data.getD (c + m) 0 = data.getD (pos + m) 0) →
      lzCopyAux c i count (data.take (pos + i)) = data.take (pos + i + count)
  | 0, i, _, _ => rfl
  | count + 1, i, hlen, heq => by
      rw [lzCopyAux]
      have h1 : (data.take (pos + i)).getD (c + i) 0 = data.getD (c + i) 0 :=
        getD_take_of_lt data (by omega) 0
      have h2 : data.take (pos + i) ++ [(data.take (pos + i)).getD (c + i) 0] =
          data.take (pos + i + 1) := by
        rw [h1, heq i le_rfl (by omega), (take_succ_getD data (by omega) 0).symm]
      rw [h2]
      have h3 := lzCopyAux_spec data c pos hc count (i + 1) (by omega)
        (fun m hm hm' => heq m (by omega) (by omega))
      have h4 : pos + i + 1 = pos + (i + 1) := by omega
      rw [h4, h3]
      congr 1
      omega

theorem toBytesBE_two {off : ℕ} (h : off < 65536) :
    toBytesBE 2 off = [off / 256, off % 256] := by
  have : off / 256 < 256 := by omega
  simp [toBytesBE, Nat.mod_eq_of_lt this]

theorem fromBytesBE_pair (a b : ℕ) : fromBytesBE [a, b] = a * 256 + b := by
  simp [fromBytesBE]

theorem lzDecLoop_literal (b : ℕ) (rest out : List ℕ) :
    lzDecLoop (0 :: b :: rest) out = lzDecLoop rest (out ++ [b]) := rfl

theorem lzDecLoop_backref (o1 o2 len : ℕ) (rest out : List ℕ) :
    lzDecLoop (1 :: o1 :: o2 :: len :: rest) out =
      if fromBytesBE [o1, o2] = 0 ∨ fromBytesBE [o1, o2] > out.length then
        .error "Corrupt LZ stream: invalid offset"
      else lzDecLoop rest (lzCopyAux (out.length - fromBytesBE [o1, o2]) 0 len out) :=
  rfl

theorem lzTokensOkAux_literal (b : ℕ) (rest : List ℕ) (emitted : ℕ) :
    lzTokensOkAux (0 :: b :: rest) emitted = lzTokensOkAux rest (emitted + 1) := rfl

theorem lzTokensOkAux_backref (o1 o2 len : ℕ) (rest : List ℕ) (emitted : ℕ) :
    lzTokensOkAux (1 :: o1 :: o2 :: len :: rest) emitted =
      ((decide (1 ≤ fromBytesBE [o1, o2]) && decide (fromBytesBE [o1, o2] ≤ 4095) &&
        decide (fromBytesBE [o1, o2] ≤ emitted) && decide (4 ≤ len) &&
        decide (len ≤ 255)) &&
       lzTokensOkAux rest (emitted + len)) := rfl

/-- One literal token: decoding it extends the faithful prefix by one byte. -/
theorem lz_literal_step (data : List ℕ) (fuel pos : ℕ) (t' : LzTable)
    (hlt : pos < data.length)
    (hfuel : data.length - pos ≤ fuel + 1)
    (hinv' : ∀ k p, p ∈ t' k → p < pos + 1)
    (ih : ∀ pos t, pos ≤ data.length → data.length - pos ≤ fuel →
      (∀ k p, p ∈ t k → p < pos) →
      lzDecLoop (lzLoop data data.length fuel pos t) (data.take pos) = .ok data ∧
      lzTokensOkAux (lzLoop data data.length fuel pos t) pos = true) :
    lzDecLoop (0 :: data.getD pos 0 :: lzLoop data data.length fuel (pos + 1) t')
      (data.take pos) = .ok data ∧
    lzTokensOkAux (0 :: data.getD pos 0 :: lzLoop data data.length fuel (pos + 1) t')
      pos = true := by
  have hstep := ih (pos + 1) t' (by omega) (by omega) hinv'
  constructor
  · rw [lzDecLoop_literal]
    rw [take_succ_getD data hlt 0] at hstep
    exact hstep.1
  · rw [lzTokensOkAux_literal]
    exact hstep.2

/-- One match token: decoding it replays the back-reference copy and extends
the faithful prefix by the match length; the token is well-shaped. -/
theorem lz_match_step (data : List ℕ) (fuel pos c : ℕ) (t' : LzTable)
    (hpos : pos ≤ data.length)
    (hfuel : data.length - pos ≤ fuel + 1)
    (hlt : pos < data.length) (hcpos : c < pos) (hcwin : pos - c ≤ 4095)
    (hml : 4 ≤ lzMatchLen data data.length c pos)
    (hinv' : ∀ k p, p ∈ t' k → p < pos + lzMatchLen data data.length c pos)
    (ih : ∀ pos t, pos ≤ data.length → data.length - pos ≤ fuel →
      (∀ k p, p ∈ t k → p < pos) →
      lzDecLoop (lzLoop data data.length fuel pos t) (data.take pos) = .ok data ∧
      lzTokensOkAux (lzLoop data data.length fuel pos t) pos = true) :
    lzDecLoop (1 :: (toBytesBE 2 (pos - c) ++ lzMatchLen data data.length c pos ::
        lzLoop data data.length fuel (pos + lzMatchLen data data.length c pos) t'))
      (data.take pos) = .ok data ∧
    lzTokensOkAux (1 :: (toBytesBE 2 (pos - c) ++ lzMatchLen data data.length c pos ::
        lzLoop data data.length fuel (pos + lzMatchLen data data.length c pos) t'))
      pos = true := by
  set L := lzMatchLen data data.length c pos with hL
  have hL255 : L ≤ 255 := lzMatchLenAux_le data data.length c pos 255 0 (by omega)
  have hwithin : pos + L ≤ data.length :=
    lzMatchLenAux_within data data.length c pos 255 0 (by omega)
  have heq : ∀ i, i < L → data.getD (c + i) 0 = data.getD (pos + i) 0 :=
    fun i hi => lzMatchLenAux_eq data data.length c pos 255 0 i (Nat.zero_le i) hi
  have hoff1 : 1 ≤ pos - c := by omega
  rw [toBytesBE_two (show pos - c < 65536 by omega)]
  have hlen : (data.take pos).length = pos := List.length_take_of_le hpos
  have hfb : fromBytesBE [(pos - c) / 256, (pos - c) % 256] = pos - c := by
    rw [fromBytesBE_pair]; omega
  have hstep := ih (pos + L) t' (by omega) (by omega) hinv'
  have hcopy : lzCopyAux ((data.take pos).length - (pos - c)) 0 L (data.take pos) =
      data.take (pos + L) := by
    rw [hlen, show pos - (pos - c) = c by omega]
    have h := lzCopyAux_spec data c pos hcpos L 0 (by omega)
      (fun m hm hm' => heq m (by omega))
    simpa using h
  constructor
  · simp only [List.cons_append, List.nil_append]
    rw [lzDecLoop_backref, hfb, hlen]
    rw [if_neg (by omega : ¬ (pos - c = 0 ∨ pos - c > pos))]
    rw [hlen] at hcopy
    rw [hcopy]
    exact hstep.1
  · simp only [List.cons_append, List.nil_append]
    rw [lzTokensOkAux_backref, hfb]
    rw [hstep.2]
    simp only [Bool.and_true]
    simp only [Bool.and_eq_true, decide_eq_true_eq]
    refine ⟨⟨⟨⟨hoff1, hcwin⟩, by omega⟩, hml⟩, hL255⟩

/-- Main invariant: decoding the remaining token stream on top of the faithful
prefix `data.take pos` recovers all of `data`, and every emitted token is
well-shaped. -/
theorem lzLoop_spec (data : List ℕ) :
    ∀ fuel pos t, pos ≤ data.length → data.length - pos ≤ fuel →
      (∀ k p, p ∈ t k → p < pos) →
      lzDecLoop (lzLoop data data.length fuel pos t) (data.take pos) = .ok data ∧
      lzTokensOkAux (lzLoop data data.length fuel pos t) pos = true := by
  intro fuel
  induction fuel with
  | zero =>
      intro pos t hpos hfuel _
      have hp : pos = data.length := by omega
      subst hp
      rw [lzLoop]
      exact ⟨by simp [lzDecLoop, List.take_length], rfl⟩
  | succ fuel ih =>
      intro pos t hpos hfuel hinv
      rw [lzLoop]
      by_cases hlt : pos < data.length
      · rw [if_pos hlt]
        by_cases hm : 4 ≤ (lzBest data data.length pos t).1
        · rw [if_pos hm]
          have h4 : pos + 4 ≤ data.length := by
            by_contra hh
            rw [lzBest, if_neg hh] at hm
            simp at hm
          rw [lzBest, if_pos h4] at hm
          rcases lzSearch_spec data data.length pos
              ((t ((data.drop pos).take 4)).reverse) (0, 0) with hid | ⟨c, hcmem, hcwin, hres⟩
          · rw [hid] at hm
            simp at hm
          · have hcpos : c < pos := hinv _ c (List.mem_reverse.1 hcmem)
            have hB : lzBest data data.length pos t =
                (lzMatchLen data data.length c pos, pos - c) := by
              rw [lzBest, if_pos h4, hres]
            rw [hres] at hm
            rw [hB]
            exact lz_match_step data fuel pos c _ hpos hfuel hlt hcpos hcwin hm
              (fun k p hp => by
                rcases tableAddRange_mem data data.length _ t pos k p hp with h | h
                · exact lt_of_lt_of_le (hinv k p h) (Nat.le_add_right _ _)
                · exact h.2) ih
        · rw [if_neg hm]
          refine lz_literal_step data fuel pos _ hlt hfuel ?_ ih
          intro k p hp
          split at hp
          · rcases tableAdd_mem hp with h | h
            · have := hinv k p h; omega
            · omega
          · have := hinv k p hp; omega
      · rw [if_neg hlt]
        have hp : pos = data.length := by omega
        subst hp
        exact ⟨by simp [lzDecLoop, List.take_length], rfl⟩

theorem lzDecompress_eq_decLoop (comp : List ℕ) :
    lzDecompress comp = lzDecLoop comp [] := by
  rw [lzDecompress]
  split
  · next h => rw [h]; rfl
  · rfl

/-- Claim C3: for every byte sequence, `_lz_decompress (_lz_compress data)`
returns `data` exactly; moreover every match token emitted by `_lz_compress`
has offset between 1 and 4095, offset not exceeding the number of bytes
already emitted at that point, and length between 4 and 255 (so overlapping
back-references, e.g. on eight zero bytes, round-trip unchanged). -/
theorem claim_C3_lz_roundtrip_and_token_bounds (data : List ℕ) :
    lzDecompress (lzCompress data) = .ok data ∧
    lzTokensOk (lzCompress data) = true := by
  rw [lzDecompress_eq_decLoop, lzCompress, lzTokensOk]
  by_cases h : data = []
  · subst h
    exact ⟨rfl, rfl⟩
  · rw [if_neg h]
    exact lzLoop_spec data data.length 0 (fun _ => []) (Nat.zero_le _)
      (by omega) (fun k p hp => absurd hp (List.not_mem_nil p))

theorem firstIdx_append_of_mem {p : Pixel} {l₁ l₂ : List Pixel} (h : p ∈ l₁) :
    firstIdx p (l₁ ++ l₂) = firstIdx p l₁ := by
  induction l₁ with
  | nil => cases h
  | cons a l ih =>
      rw [List.cons_append, firstIdx, firstIdx]
      by_cases hpa : a = p
      · rw [if_pos hpa, if_pos hpa]
      · rw [if_neg hpa, if_neg hpa, ih (by
          rcases List.mem_cons.1 h with h' | h'
          · exact absurd h'.symm hpa
          · exact h')]

theorem firstIdx_append_not_mem {p : Pixel} {l : List Pixel} (h : p ∉ l) :
    firstIdx p (l ++ [p]) = l.length := by
  induction l with
  | nil => simp [firstIdx]
  | cons a l ih =>
      rw [List.cons_append, firstIdx,
        if_neg (fun hh => h (by rw [← hh]; exact List.mem_cons_self ..)),
        ih (fun hm => h (List.mem_cons_of_mem _ hm)), List.length_cons]

theorem firstIdx_lt_length_of_mem {p : Pixel} {l : List Pixel} (h : p ∈ l) :
    firstIdx p l < l.length := by
  induction l with
  | nil => cases h
  | cons a l ih =>
      rw [firstIdx]
      by_cases hpa : a = p
      · rw [if_pos hpa]
        simp
      · rw [if_neg hpa, List.length_cons]
        have hmem : p ∈ l := by
          rcases List.mem_cons.1 h with h' | h'
          · exact absurd h'.symm hpa
          · exact h'
        exact Nat.succ_lt_succ (ih hmem)

theorem palInv_nil : PalInv [] [] (fun _ => none) where
  isSome_iff := by simp
  lookup := by simp
  nodup := List.nodup_nil
  mem_iff := by simp
  ordered := by simp

theorem palInv_step {pre pal : List Pixel} {m : Pixel → Option ℕ} {pix : Pixel}
    (h : PalInv pre pal m) :
    PalInv (pre ++ [pix]) (paletteStep (pal, m) pix).1 (paletteStep (pal, m) pix).2 := by
  rcases hm : m pix with _ | i
  · -- first sighting: append to the palette, extend the map
    have hnotpal : pix ∉ pal := by
      intro hmem
      have := (h.isSome_iff pix).2 hmem
      rw [hm] at this
      simp at this
    have hnotpre : pix ∉ pre := fun hp => hnotpal ((h.mem_iff pix).2 hp)
    simp only [paletteStep, hm]
    constructor
    · intro p
      by_cases hp : p = pix
      · subst hp
        simp [List.mem_append]
      · simp only [if_neg hp]
        rw [h.isSome_iff p]
        simp [List.mem_append, hp]
    · intro p i hpi
      have hpi' : (if p = pix then some pal.length else m p) = some i := hpi
      by_cases hp : p = pix
      · subst hp
        rw [if_pos rfl] at hpi'
        have hi : i = pal.length := by
          have := Option.some.inj hpi'
          omega
        subst hi
        rw [List.getElem?_append_right le_rfl]
        simp
      · rw [if_neg hp] at hpi'
        have hlk := h.lookup p i hpi'
        obtain ⟨hlt, _⟩ := List.getElem?_eq_some.1 hlk
        rw [List.getElem?_append_left hlt]
        exact hlk
    · rw [List.nodup_append]
      refine ⟨h.nodup, List.nodup_singleton pix, fun a ha hb => ?_⟩
      simp only [List.mem_singleton] at hb
      exact hnotpal (hb ▸ ha)
    · intro p
      rw [List.mem_append, List.mem_append, h.mem_iff p]
    · intro i j p q hp hq hij
      have hjle : j ≤ pal.length := by
        by_contra hj
        rw [List.getElem?_append_right (by omega),
          List.getElem?_eq_none (by simp; omega)] at hq
        cases hq
      have hilt : i < pal.length := by omega
      rw [List.getElem?_append_left hilt] at hp
      have hppal : p ∈ pal := by
        obtain ⟨hlt, rfl⟩ := List.getElem?_eq_some.1 hp
        exact List.getElem_mem hlt
      have hppre : p ∈ pre := (h.mem_iff p).1 hppal
      rcases eq_or_lt_of_le hjle with rfl | hjlt
      · -- q is the freshly appended pixel
        rw [List.getElem?_append_right le_rfl] at hq
        have hq' : pix = q := by simpa using hq
        subst hq'
        rw [firstIdx_append_of_mem hppre, firstIdx_append_not_mem hnotpre]
        exact firstIdx_lt_length_of_mem hppre
      · rw [List.getElem?_append_left hjlt] at hq
        have hqpal : q ∈ pal := by
          obtain ⟨hlt, rfl⟩ := List.getElem?_eq_some.1 hq
          exact List.getElem_mem hlt
        rw [firstIdx_append_of_mem hppre,
          firstIdx_append_of_mem ((h.mem_iff q).1 hqpal)]
        exact h.ordered i j p q hp hq hij
  · -- already present: nothing changes except the scanned prefix
    simp only [paletteStep, hm]
    constructor
    · exact h.isSome_iff
    · exact h.lookup
    · exact h.nodup
    · intro p
      rw [h.mem_iff p, List.mem_append]
      constructor
      · exact Or.inl
      · rintro (hp | hp)
        · exact hp
        · simp at hp
          subst hp
          have : (m p).isSome := by rw [hm]; rfl
          exact (h.mem_iff p).1 ((h.isSome_iff p).1 this)
    · intro i j p q hp hq hij
      have hppal : p ∈ pal := by
        obtain ⟨hlt, rfl⟩ := List.getElem?_eq_some.1 hp
        exact List.getElem_mem hlt
      have hqpal : q ∈ pal := by
        obtain ⟨hlt, rfl⟩ := List.getElem?_eq_some.1 hq
        exact List.getElem_mem hlt
      rw [firstIdx_append_of_mem ((h.mem_iff p).1 hppal),
        firstIdx_append_of_mem ((h.mem_iff q).1 hqpal)]
      exact h.ordered i j p q hp hq hij

theorem palInv_foldl (rest : List Pixel) :
    ∀ pre pal m, PalInv pre pal m →
      PalInv (pre ++ rest) (rest.foldl paletteStep (pal, m)).1
        (rest.foldl paletteStep (pal, m)).2 := by
  induction rest with
  | nil => intro pre pal m h; simpa using h
  | cons a rest ih =>
      intro pre pal m h
      have hstep := @palInv_step _ _ _ a h
      have := ih (pre ++ [a]) _ _ hstep
      rw [List.append_assoc] at this
      simpa using this

/-- The palette/index-map invariant at the end of the scan. -/
theorem buildPalette_inv (symbols : List Pixel) :
    PalInv symbols (buildPalette symbols).1 (buildPalette symbols).2 := by
  have := palInv_foldl symbols [] [] (fun _ => none) palInv_nil
  simpa [buildPalette] using this

theorem indexStream_length (symbols : List Pixel) :
    (indexStream symbols).length = symbols.length := by
  simp [indexStream]

theorem buildPalette_lookup_mem {symbols : List Pixel} {p : Pixel} (h : p ∈ symbols) :
    ((buildPalette symbols).1)[((buildPalette symbols).2 p).getD 0]? = some p := by
  have inv := buildPalette_inv symbols
  have hsome : ((buildPalette symbols).2 p).isSome :=
    (inv.isSome_iff p).2 ((inv.mem_iff p).2 h)
  obtain ⟨i, hi⟩ := Option.isSome_iff_exists.1 hsome
  rw [hi]
  exact inv.lookup p i hi

theorem indexStream_getD {symbols : List Pixel} {k : ℕ} (hk : k < symbols.length) :
    (indexStream symbols).getD k 0 =
      ((buildPalette symbols).2 (symbols.getD k (0, 0, 0))).getD 0 := by
  have h1 : symbols[k]? = some symbols[k] := List.getElem?_eq_getElem hk
  simp [indexStream, List.getD_eq_getElem?_getD, List.getElem?_map, h1]

theorem buildPalette_length_le (symbols : List Pixel)
    (hb : ∀ p ∈ symbols, p.1 < 256 ∧ p.2.1 < 256 ∧ p.2.2 < 256) :
    (buildPalette symbols).1.length ≤ 2 ^ 24 := by
  have inv := buildPalette_inv symbols
  have hsub : (buildPalette symbols).1.toFinset ⊆
      (Finset.range 256) ×ˢ ((Finset.range 256) ×ˢ (Finset.range 256)) := by
    intro p hp
    have hmem : p ∈ symbols := (inv.mem_iff p).1 (List.mem_toFinset.1 hp)
    obtain ⟨h1, h2, h3⟩ := hb p hmem
    rw [Finset.mem_product, Finset.mem_product]
    exact ⟨Finset.mem_range.2 h1, Finset.mem_range.2 h2, Finset.mem_range.2 h3⟩
  calc (buildPalette symbols).1.length = (buildPalette symbols).1.toFinset.card :=
        (List.toFinset_card_of_nodup inv.nodup).symm
    _ ≤ ((Finset.range 256) ×ˢ ((Finset.range 256) ×ˢ (Finset.range 256))).card :=
        Finset.card_le_card hsub
    _ ≤ 2 ^ 24 := by
        rw [Finset.card_product, Finset.card_product, Finset.card_range]
        norm_num

theorem buildPalette_length_of_nodup {symbols : List Pixel} (h : symbols.Nodup) :
    (buildPalette symbols).1.length = symbols.length := by
  have inv := buildPalette_inv symbols
  have hfin : (buildPalette symbols).1.toFinset = symbols.toFinset := by
    ext p
    simp only [List.mem_toFinset]
    exact inv.mem_iff p
  calc (buildPalette symbols).1.length = (buildPalette symbols).1.toFinset.card :=
        (List.toFinset_card_of_nodup inv.nodup).symm
    _ = symbols.toFinset.card := by rw [hfin]
    _ = symbols.length := List.toFinset_card_of_nodup h

/-- Claim C6 (amended: the size bound is `2^24`, the number of distinct
byte triples, not `2^18`): the palette built by `compress` has no duplicate
triples, lists colors in order of first appearance in the row-major scan
(`firstIdx` is strictly monotone along the palette), each stream index points
back to its pixel (`palette[indices[k]] = pixel k`), the palette size is at
most `2^24`, and identical grids yield identical palettes and index streams. -/
theorem claim_C6_palette_invariants (grid : List (List Pixel))
    (hbytes : ∀ row ∈ grid, ∀ p ∈ row, p.1 < 256 ∧ p.2.1 < 256 ∧ p.2.2 < 256) :
    (buildPalette (flattenGrid grid)).1.Nodup ∧
    (∀ (i j : ℕ) (p q : Pixel), ((buildPalette (flattenGrid grid)).1)[i]? = some p →
        ((buildPalette (flattenGrid grid)).1)[j]? = some q → i < j →
        firstIdx p (flattenGrid grid) < firstIdx q (flattenGrid grid)) ∧
    (indexStream (flattenGrid grid)).length = (flattenGrid grid).length ∧
    (∀ k, k < (flattenGrid grid).length →
        ((buildPalette (flattenGrid grid)).1)[(indexStream (flattenGrid grid)).getD k 0]? =
          some ((flattenGrid grid).getD k (0, 0, 0))) ∧
    (buildPalette (flattenGrid grid)).1.length ≤ 2 ^ 24 ∧
    (∀ grid', grid = grid' →
        buildPalette (flattenGrid grid') = buildPalette (flattenGrid grid) ∧
        indexStream (flattenGrid grid') = indexStream (flattenGrid grid)) := by
  have inv := buildPalette_inv (flattenGrid grid)
  refine ⟨inv.nodup, inv.ordered, indexStream_length _, ?_, ?_, ?_⟩
  · intro k hk
    rw [indexStream_getD hk]
    have hmem : (flattenGrid grid).getD k (0, 0, 0) ∈ flattenGrid grid := by
      rw [List.getD_eq_getElem?_getD, List.getElem?_eq_getElem hk]
      exact List.getElem_mem hk
    exact buildPalette_lookup_mem hmem
  · refine buildPalette_length_le _ (fun p hp => ?_)
    obtain ⟨row, hrow, hprow⟩ := List.mem_flatten.1 hp
    exact hbytes row hrow p hprow
  · intro grid' hg
    rw [hg]
    exact ⟨rfl, rfl⟩

/-- Witness for claim C6's theorem at the concrete grid `[[(1,2,3),(1,2,3)]]`. -/
theorem claim_C6_palette_invariants_witness :
    (∀ row ∈ [[((1 : ℕ), (2 : ℕ), (3 : ℕ)), ((1 : ℕ), (2 : ℕ), (3 : ℕ))]],
      ∀ p ∈ row, p.1 < 256 ∧ p.2.1 < 256 ∧ p.2.2 < 256) ∧
    ((buildPalette (flattenGrid [[(1, 2, 3), (1, 2, 3)]])).1.Nodup ∧
    (∀ (i j : ℕ) (p q : Pixel),
        ((buildPalette (flattenGrid [[(1, 2, 3), (1, 2, 3)]])).1)[i]? = some p →
        ((buildPalette (flattenGrid [[(1, 2, 3), (1, 2, 3)]])).1)[j]? = some q → i < j →
        firstIdx p (flattenGrid [[(1, 2, 3), (1, 2, 3)]]) <
          firstIdx q (flattenGrid [[(1, 2, 3), (1, 2, 3)]])) ∧
    (indexStream (flattenGrid [[(1, 2, 3), (1, 2, 3)]])).length =
      (flattenGrid [[(1, 2, 3), (1, 2, 3)]]).length ∧
    (∀ k, k < (flattenGrid [[(1, 2, 3), (1, 2, 3)]]).length →
        ((buildPalette (flattenGrid [[(1, 2, 3), (1, 2, 3)]])).1)[(indexStream
          (flattenGrid [[(1, 2, 3), (1, 2, 3)]])).getD k 0]? =
          some ((flattenGrid [[(1, 2, 3), (1, 2, 3)]]).getD k (0, 0, 0))) ∧
    (buildPalette (flattenGrid [[(1, 2, 3), (1, 2, 3)]])).1.length ≤ 2 ^ 24 ∧
    (∀ grid', [[((1 : ℕ), (2 : ℕ), (3 : ℕ)), ((1 : ℕ), (2 : ℕ), (3 : ℕ))]] = grid' →
        buildPalette (flattenGrid grid') =
          buildPalette (flattenGrid [[(1, 2, 3), (1, 2, 3)]]) ∧
        indexStream (flattenGrid grid') =
          indexStream (flattenGrid [[(1, 2, 3), (1, 2, 3)]]))) :=
  ⟨by decide, claim_C6_palette_invariants [[(1, 2, 3), (1, 2, 3)]] (by decide)⟩

theorem cexColor_injective : Function.Injective cexColor := by
  intro i j hij
  simp only [cexColor, Prod.mk.injEq] at hij
  omega

/-- Counterexample to claim C6 as stated: the palette of `cexGrid` (a valid
non-empty rectangular grid of byte triples) has `2^18 + 1 > 2^18` entries. -/
theorem claim_C6_counterexample :
    ¬ ((buildPalette (flattenGrid cexGrid)).1.length ≤ 2 ^ 18) := by
  have hflat : flattenGrid cexGrid = (List.range (2 ^ 18 + 1)).map cexColor := by
    simp [flattenGrid, cexGrid]
  rw [hflat, buildPalette_length_of_nodup
    ((List.nodup_range (2 ^ 18 + 1)).map cexColor_injective)]
  rw [List.length_map, List.length_range]
  exact Nat.not_succ_le_self (2 ^ 18)

theorem fromBytesBE_eq_baseVal (l : List ℕ) : fromBytesBE l = baseVal 256 l := rfl

theorem baseVal_foldl_init (B : ℕ) (l : List ℕ) :
    ∀ z, l.foldl (fun acc x => acc * B + x) z = z * B ^ l.length + baseVal B l := by
  induction l with
  | nil => intro z; simp [baseVal]
  | cons a l ih =>
      intro z
      have h1 : baseVal B (a :: l) = (0 * B + a) * B ^ l.length + baseVal B l :=
        ih (0 * B + a)
      rw [List.foldl_cons, ih (z * B + a), h1, List.length_cons]
      ring

theorem baseVal_append (B : ℕ) (l₁ l₂ : List ℕ) :
    baseVal B (l₁ ++ l₂) = baseVal B l₁ * B ^ l₂.length + baseVal B l₂ := by
  rw [baseVal, List.foldl_append, ← baseVal, baseVal_foldl_init]

theorem baseVal_lt (B : ℕ) (hB : 0 < B) (l : List ℕ) (h : ∀ x ∈ l, x < B) :
    baseVal B l < B ^ l.length := by
  induction l with
  | nil => simp [baseVal]
  | cons a l ih =>
      have h1 : baseVal B (a :: l) = a * B ^ l.length + baseVal B l := by
        rw [show a :: l = [a] ++ l from rfl, baseVal_append]
        simp [baseVal]
      rw [h1, List.length_cons, pow_succ]
      have ha : a < B := h a (List.mem_cons_self ..)
      have hl : baseVal B l < B ^ l.length := ih (fun x hx => h x (List.mem_cons_of_mem _ hx))
      calc a * B ^ l.length + baseVal B l < a * B ^ l.length + B ^ l.length := by omega
        _ = (a + 1) * B ^ l.length := by ring
        _ ≤ B * B ^ l.length := by
            have : a + 1 ≤ B := ha
            exact Nat.mul_le_mul_right _ this
        _ = B ^ l.length * B := by ring

theorem baseVal_take_prefix (B : ℕ) (hB : 0 < B) (l : List ℕ) (h : ∀ x ∈ l, x < B)
    {j : ℕ} (hj : j ≤ l.length) :
    baseVal B (l.take j) = baseVal B l / B ^ (l.length - j) := by
  have hsplit : l = l.take j ++ l.drop j := (List.take_append_drop j l).symm
  have hlen : (l.drop j).length = l.length - j := List.length_drop ..
  have hbound : baseVal B (l.drop j) < B ^ (l.length - j) := by
    rw [← hlen]
    exact baseVal_lt B hB _ (fun x hx => h x (List.mem_of_mem_drop hx))
  have hval : baseVal B l =
      B ^ (l.length - j) * baseVal B (l.take j) + baseVal B (l.drop j) := by
    conv_lhs => rw [hsplit]
    rw [baseVal_append, hlen,
      mul_comm (baseVal B (l.take j)) (B ^ (l.length - j))]
  rw [hval, add_comm, Nat.add_mul_div_left _ _ (pow_pos hB _),
    Nat.div_eq_of_lt hbound, zero_add]

theorem baseVal_take_succ (B : ℕ) (l : List ℕ) {k : ℕ} (hk : k < l.length) :
    baseVal B (l.take (k + 1)) = baseVal B (l.take k) * B + l.getD k 0 := by
  rw [take_succ_getD l hk 0, baseVal_append]
  simp [baseVal]

theorem baseVal_cons (B a : ℕ) (l : List ℕ) :
    baseVal B (a :: l) = a * B ^ l.length + baseVal B l := by
  have h : baseVal B (a :: l) = (0 * B + a) * B ^ l.length + baseVal B l :=
    baseVal_foldl_init B l (0 * B + a)
  rw [h]
  ring

theorem baseVal_append_one (B : ℕ) (l : List ℕ) (x : ℕ) :
    baseVal B (l ++ [x]) = baseVal B l * B + x := by
  rw [baseVal_append]
  simp [baseVal]

/-! ### The v5 packer writes exactly the big-endian bit concatenation -/
theorem flushMSB_spec :
    ∀ (fuel buf cnt : ℕ) (out : List ℕ), cnt ≤ fuel + 7 → buf < 2 ^ cnt →
      (flushMSB fuel buf cnt out).2.2 < 8 ∧
      (flushMSB fuel buf cnt out).2.1 < 2 ^ (flushMSB fuel buf cnt out).2.2 ∧
      fromBytesBE (flushMSB fuel buf cnt out).1 * 2 ^ (flushMSB fuel buf cnt out).2.2 +
        (flushMSB fuel buf cnt out).2.1 = fromBytesBE out * 2 ^ cnt + buf ∧
      8 * (flushMSB fuel buf cnt out).1.length + (flushMSB fuel buf cnt out).2.2 =
        8 * out.length + cnt ∧
      (∀ x ∈ (flushMSB fuel buf cnt out).1, x ∈ out ∨ x < 256)
  | 0, buf, cnt, out, hfuel, hbuf => by
      rw [flushMSB]
      dsimp only
      exact ⟨by omega, hbuf, rfl, rfl, fun x hx => Or.inl hx⟩
  | fuel + 1, buf, cnt, out, hfuel, hbuf => by
      rw [flushMSB]
      split
      · next h8 =>
          have hpow : (256 : ℕ) * 2 ^ (cnt - 8) = 2 ^ cnt := by
            rw [show (256 : ℕ) = 2 ^ 8 by norm_num, ← pow_add]
            congr 1
            omega
          have hdiv : buf / 2 ^ (cnt - 8) < 256 := by
            apply Nat.div_lt_of_lt_mul
            rw [mul_comm, hpow]
            exact hbuf
          have hmod : buf / 2 ^ (cnt - 8) % 256 = buf / 2 ^ (cnt - 8) :=
            Nat.mod_eq_of_lt hdiv
          have ih := flushMSB_spec fuel (buf % 2 ^ (cnt - 8)) (cnt - 8)
            (out ++ [buf / 2 ^ (cnt - 8) % 256]) (by omega)
            (Nat.mod_lt _ (pow_pos two_pos _))
          refine ⟨ih.1, ih.2.1, ?_, ?_, ?_⟩
          · rw [ih.2.2.1, hmod, fromBytesBE_append_byte]
            have hdm : buf / 2 ^ (cnt - 8) * 2 ^ (cnt - 8) + buf % 2 ^ (cnt - 8) = buf := by
              rw [mul_comm]
              exact Nat.div_add_mod buf _
            calc (fromBytesBE out * 256 + buf / 2 ^ (cnt - 8)) * 2 ^ (cnt - 8) +
                  buf % 2 ^ (cnt - 8)
                = fromBytesBE out * (256 * 2 ^ (cnt - 8)) +
                  (buf / 2 ^ (cnt - 8) * 2 ^ (cnt - 8) + buf % 2 ^ (cnt - 8)) := by ring
              _ = fromBytesBE out * 2 ^ cnt + buf := by rw [hpow, hdm]
          · rw [ih.2.2.2.1, List.length_append]
            simp
            omega
          · intro x hx
            rcases ih.2.2.2.2 x hx with h | h
            · rcases List.mem_append.1 h with h' | h'
              · exact Or.inl h'
              · simp only [List.mem_singleton] at h'
                subst h'
                exact Or.inr (Nat.mod_lt _ (by norm_num))
            · exact Or.inr h
      · next h8 =>
          dsimp only
          exact ⟨by omega, hbuf, rfl, rfl, fun x hx => Or.inl hx⟩

theorem packStep_inv {b : ℕ} {done : List ℕ} {st : List ℕ × ℕ × ℕ} {idx : ℕ}
    (h : PackInv b done st) (hidx : idx < 2 ^ b) :
    PackInv b (done ++ [idx]) (packStep b st idx) := by
  obtain ⟨hcnt, hbuf, hval, hlen, hbytes⟩ := h
  have hidxm : idx % 2 ^ b = idx := Nat.mod_eq_of_lt hidx
  have hpre : st.2.1 * 2 ^ b + idx % 2 ^ b < 2 ^ (st.2.2 + b) := by
    rw [hidxm, pow_add]
    calc st.2.1 * 2 ^ b + idx < st.2.1 * 2 ^ b + 2 ^ b := by omega
      _ = (st.2.1 + 1) * 2 ^ b := by ring
      _ ≤ 2 ^ st.2.2 * 2 ^ b := Nat.mul_le_mul_right _ hbuf
  have hspec := flushMSB_spec (st.2.2 + b) (st.2.1 * 2 ^ b + idx % 2 ^ b)
    (st.2.2 + b) st.1 (by omega) hpre
  refine ⟨hspec.1, hspec.2.1, ?_, ?_, ?_⟩
  · rw [show packStep b st idx = flushMSB (st.2.2 + b) (st.2.1 * 2 ^ b + idx % 2 ^ b)
        (st.2.2 + b) st.1 from rfl]
    rw [hspec.2.2.1, hidxm, baseVal_append_one]
    calc fromBytesBE st.1 * 2 ^ (st.2.2 + b) + (st.2.1 * 2 ^ b + idx)
        = (fromBytesBE st.1 * 2 ^ st.2.2 + st.2.1) * 2 ^ b + idx := by
          rw [pow_add]; ring
      _ = baseVal (2 ^ b) done * 2 ^ b + idx := by rw [hval]
  · rw [show packStep b st idx = flushMSB (st.2.2 + b) (st.2.1 * 2 ^ b + idx % 2 ^ b)
        (st.2.2 + b) st.1 from rfl]
    rw [hspec.2.2.2.1, List.length_append, List.length_singleton, mul_add, mul_one]
    omega
  · intro x hx
    rcases hspec.2.2.2.2 x hx with h' | h'
    · exact hbytes x h'
    · exact h'

theorem pack_foldl_inv (b : ℕ) :
    ∀ (codes done : List ℕ) (st : List ℕ × ℕ × ℕ), PackInv b done st →
      (∀ c ∈ codes, c < 2 ^ b) →
      PackInv b (done ++ codes) (codes.foldl (packStep b) st)
  | [], done, st, h, _ => by simpa using h
  | c :: codes, done, st, h, hc => by
      rw [List.foldl_cons]
      have h1 := packStep_inv h (hc c (List.mem_cons_self ..))
      have h2 := pack_foldl_inv b codes (done ++ [c]) _ h1
        (fun x hx => hc x (List.mem_cons_of_mem _ hx))
      rw [List.append_assoc] at h2
      simpa using h2

theorem packBitsMSB_spec (b : ℕ) (codes : List ℕ) (hc : ∀ c ∈ codes, c < 2 ^ b) :
    ∃ pad, pad < 8 ∧
      fromBytesBE (packBitsMSB b codes) = baseVal (2 ^ b) codes * 2 ^ pad ∧
      8 * (packBitsMSB b codes).length = b * codes.length + pad ∧
      ∀ x ∈ packBitsMSB b codes, x < 256 := by
  have h0 : PackInv b [] ([], 0, 0) := by
    refine ⟨by norm_num, by norm_num, ?_, by simp, by simp⟩
    simp [fromBytesBE, baseVal]
  have hinv := pack_foldl_inv b codes [] ([], 0, 0) h0 hc
  rw [List.nil_append] at hinv
  rw [packBitsMSB, packFinish]
  set st := codes.foldl (packStep b) ([], 0, 0) with hst
  obtain ⟨hcnt, hbuf, hval, hlen, hbytes⟩ := hinv
  by_cases hc0 : 0 < st.2.2
  · rw [if_pos hc0]
    have hpow : (2 : ℕ) ^ st.2.2 * 2 ^ (8 - st.2.2) = 256 := by
      rw [← pow_add, show st.2.2 + (8 - st.2.2) = 8 by omega]
      norm_num
    have hx : st.2.1 * 2 ^ (8 - st.2.2) < 256 := by
      calc st.2.1 * 2 ^ (8 - st.2.2) < 2 ^ st.2.2 * 2 ^ (8 - st.2.2) :=
            (Nat.mul_lt_mul_right (pow_pos two_pos _)).mpr hbuf
        _ = 256 := hpow
    refine ⟨8 - st.2.2, by omega, ?_, ?_, ?_⟩
    · rw [fromBytesBE_append_byte, Nat.mod_eq_of_lt hx]
      calc fromBytesBE st.1 * 256 + st.2.1 * 2 ^ (8 - st.2.2)
          = (fromBytesBE st.1 * 2 ^ st.2.2 + st.2.1) * 2 ^ (8 - st.2.2) := by
            rw [add_mul, mul_assoc, hpow]
        _ = baseVal (2 ^ b) codes * 2 ^ (8 - st.2.2) := by rw [hval]
    · rw [List.length_append, List.length_singleton, mul_add, mul_one]
      omega
    · intro x hx'
      rcases List.mem_append.1 hx' with h' | h'
      · exact hbytes x h'
      · simp only [List.mem_singleton] at h'
        subst h'
        exact Nat.mod_lt _ (by norm_num)
  · rw [if_neg hc0]
    have hcnt0 : st.2.2 = 0 := by omega
    refine ⟨0, by norm_num, ?_, by omega, hbytes⟩
    rw [pow_zero, mul_one]
    rw [hcnt0, pow_zero, mul_one] at hval
    rw [hcnt0, pow_zero] at hbuf
    omega

/-! ### The v5 unpacker recovers the codes -/
theorem mod_pow_div {k c : ℕ} (n : ℕ) (h : k ≤ c) :
    n % 2 ^ c / 2 ^ (c - k) = n / 2 ^ (c - k) % 2 ^ k := by
  rw [show (2 : ℕ) ^ c = 2 ^ (c - k) * 2 ^ k by rw [← pow_add]; congr 1; omega,
    Nat.mod_mul_right_div_self]

theorem mul_add_mod_mul {a r m c : ℕ} (hr : r < c) :
    (a * c + r) % (m * c) = a % m * c + r := by
  by_cases hm : m = 0
  · subst hm
    simp [Nat.mod_zero]
  · have h1 : a * c + r = a % m * c + r + m * c * (a / m) := by
      conv_lhs => rw [← Nat.div_add_mod a m]
      ring
    rw [h1, Nat.add_mul_mod_self_left]
    refine Nat.mod_eq_of_lt ?_
    have h2 : a % m < m := Nat.mod_lt _ (Nat.pos_of_ne_zero hm)
    calc a % m * c + r < a % m * c + c := by omega
      _ = (a % m + 1) * c := by ring
      _ ≤ m * c := Nat.mul_le_mul_right _ (by omega)

/-- Extracting the `k`-th `b`-bit field (MSB-first) from the padded
concatenation of the codes yields the `k`-th code. -/
theorem code_extract (b pad : ℕ) (codes : List ℕ) (hc : ∀ c ∈ codes, c < 2 ^ b)
    {k : ℕ} (hk : k < codes.length) :
    baseVal (2 ^ b) codes * 2 ^ pad / 2 ^ (b * (codes.length - 1 - k) + pad) % 2 ^ b =
      codes.getD k 0 := by
  have hb2 : (0 : ℕ) < 2 ^ b := pow_pos two_pos b
  rw [pow_add, Nat.mul_div_mul_right _ _ (pow_pos two_pos pad)]
  rw [show codes.length - 1 - k = codes.length - (k + 1) by omega, pow_mul]
  rw [← baseVal_take_prefix (2 ^ b) hb2 codes hc (by omega)]
  rw [baseVal_take_succ _ _ hk, mul_comm (baseVal (2 ^ b) (codes.take k)) (2 ^ b),
    Nat.mul_add_mod]
  refine Nat.mod_eq_of_lt ?_
  have hgd : codes.getD k 0 = codes[k] := by
    rw [List.getD_eq_getElem?_getD, List.getElem?_eq_getElem hk]
    rfl
  rw [hgd]
  exact hc _ (List.getElem_mem hk)

theorem extractMSB_spec (b N pad : ℕ) (codes : List ℕ) (hN : codes.length = N)
    (hc : ∀ c ∈ codes, c < 2 ^ b) (V D : ℕ)
    (hV : V = baseVal (2 ^ b) codes * 2 ^ pad) :
    ∀ (fuel buf cnt : ℕ) (acc : List ℕ), N - acc.length ≤ fuel →
      UnpackInv b N pad codes V D (acc, buf, cnt) →
      UnpackInv b N pad codes V D (extractMSB b N fuel buf cnt acc) ∧
      ((extractMSB b N fuel buf cnt acc).2.2 < b ∨
        (extractMSB b N fuel buf cnt acc).1.length = N)
  | 0, buf, cnt, acc, hfuel, hinv => by
      rw [extractMSB]
      refine ⟨hinv, Or.inr ?_⟩
      have h1 := hinv.2.1
      dsimp only at h1 ⊢
      omega
  | fuel + 1, buf, cnt, acc, hfuel, hinv => by
      rw [extractMSB]
      split
      · next hcond =>
          obtain ⟨hb, hk⟩ := hcond
          obtain ⟨hacc, hlen, hbits, hbuf⟩ := hinv
          dsimp only at hacc hlen hbits hbuf
          have hklen : acc.length < codes.length := by omega
          have hcode : buf / 2 ^ (cnt - b) % 2 ^ b = codes.getD acc.length 0 := by
            rw [hbuf, mod_pow_div _ hb, Nat.mod_mod_of_dvd _ dvd_rfl,
              Nat.div_div_eq_div_mul, ← pow_add]
            have hexp : D + (cnt - b) = b * (codes.length - 1 - acc.length) + pad := by
              have h1 : N - acc.length = (N - 1 - acc.length) + 1 := by omega
              have h2 : b * (N - acc.length) = b * (N - 1 - acc.length) + b := by
                rw [h1, mul_add, mul_one]
              have h3 : codes.length - 1 - acc.length = N - 1 - acc.length := by omega
              rw [h3]
              omega
            rw [hexp, hV]
            exact code_extract b pad codes hc hklen
          have hinv' : UnpackInv b N pad codes V D
              (acc ++ [buf / 2 ^ (cnt - b) % 2 ^ b], buf % 2 ^ (cnt - b), cnt - b) := by
            refine ⟨?_, ?_, ?_, ?_⟩ <;> dsimp only
            · rw [hcode, List.length_append, List.length_singleton,
                take_succ_getD codes hklen 0, ← hacc]
            · rw [List.length_append, List.length_singleton]
              omega
            · rw [List.length_append, List.length_singleton]
              have h1 : N - acc.length = (N - (acc.length + 1)) + 1 := by omega
              have h2 : b * (N - acc.length) = b * (N - (acc.length + 1)) + b := by
                rw [h1, mul_add, mul_one]
              omega
            · rw [hbuf, Nat.mod_mod_of_dvd _ (pow_dvd_pow 2 (by omega))]
          have hfuel' : N - (acc ++ [buf / 2 ^ (cnt - b) % 2 ^ b]).length ≤ fuel := by
            rw [List.length_append, List.length_singleton]
            omega
          exact extractMSB_spec b N pad codes hN hc V D hV fuel _ _ _ hfuel' hinv'
      · next hcond =>
          rw [Decidable.not_and_iff_or_not] at hcond
          refine ⟨hinv, ?_⟩
          dsimp only
          rcases hcond with h | h
          · exact Or.inl (by omega)
          · have h1 := hinv.2.1
            dsimp only at h1
            exact Or.inr (by omega)

theorem unpack_foldl_inv (b N pad : ℕ) (codes : List ℕ) (hN : codes.length = N)
    (hc : ∀ c ∈ codes, c < 2 ^ b) (V : ℕ)
    (hV : V = baseVal (2 ^ b) codes * 2 ^ pad) :
    ∀ (rest : List ℕ) (st : List ℕ × ℕ × ℕ),
      (∀ x ∈ rest, x < 256) →
      fromBytesBE rest = V % 2 ^ (8 * rest.length) →
      UnpackInv b N pad codes V (8 * rest.length) st →
      (st.2.2 < b ∨ st.1.length = N) →
      UnpackInv b N pad codes V 0 (rest.foldl (unpackStep b N) st) ∧
      ((rest.foldl (unpackStep b N) st).2.2 < b ∨
        (rest.foldl (unpackStep b N) st).1.length = N)
  | [], st, _, _, hinv, hstop => by
      rw [List.foldl_nil]
      constructor
      · simpa using hinv
      · exact hstop
  | x :: xs, st, hbytes, hrest, hinv, _ => by
      rw [List.foldl_cons]
      obtain ⟨hacc, hlen, hbits, hbuf⟩ := hinv
      have hxlt : x < 256 := hbytes x (List.mem_cons_self ..)
      have hxslt : ∀ y ∈ xs, y < 256 := fun y hy => hbytes y (List.mem_cons_of_mem _ hy)
      have hD : 8 * (x :: xs).length = 8 * xs.length + 8 := by
        rw [List.length_cons]
        ring
      have h256 : (256 : ℕ) ^ xs.length = 2 ^ (8 * xs.length) := by
        rw [show (256 : ℕ) = 2 ^ 8 by norm_num, ← pow_mul]
      have hxsbound : fromBytesBE xs < 2 ^ (8 * xs.length) := by
        have h1 : baseVal 256 xs < 256 ^ xs.length := baseVal_lt 256 (by norm_num) xs hxslt
        rwa [h256, ← fromBytesBE_eq_baseVal] at h1
      have hcons : fromBytesBE (x :: xs) = x * 256 ^ xs.length + fromBytesBE xs := by
        rw [fromBytesBE_eq_baseVal, baseVal_cons, ← fromBytesBE_eq_baseVal]
      have hsplit : V % 2 ^ (8 * xs.length + 8) =
          x * 2 ^ (8 * xs.length) + fromBytesBE xs := by
        rw [← hD, ← hrest, hcons, h256]
      have hdivx : (x * 2 ^ (8 * xs.length) + fromBytesBE xs) / 2 ^ (8 * xs.length) = x := by
        rw [add_comm, mul_comm, Nat.add_mul_div_left _ _ (pow_pos two_pos _),
          Nat.div_eq_of_lt hxsbound, zero_add]
      have h5 : V / 2 ^ (8 * xs.length) % 2 ^ 8 =
          V % 2 ^ (8 * xs.length + 8) / 2 ^ (8 * xs.length) := by
        have h := @mod_pow_div 8 (8 * xs.length + 8) V (by omega)
        rw [show 8 * xs.length + 8 - 8 = 8 * xs.length by omega] at h
        exact h.symm
      have hxval : x = V / 2 ^ (8 * xs.length) % 2 ^ 8 := by
        rw [h5, hsplit, hdivx]
      have hdd : V / 2 ^ (8 * xs.length) / 2 ^ 8 = V / 2 ^ (8 * xs.length + 8) := by
        rw [Nat.div_div_eq_div_mul, ← pow_add]
      have h6 := @mul_add_mod_mul (V / 2 ^ (8 * xs.length) / 2 ^ 8)
        (V / 2 ^ (8 * xs.length) % 2 ^ 8) (2 ^ st.2.2) (2 ^ 8)
        (Nat.mod_lt _ (by norm_num))
      rw [show V / 2 ^ (8 * xs.length) / 2 ^ 8 * 2 ^ 8 + V / 2 ^ (8 * xs.length) % 2 ^ 8 =
        V / 2 ^ (8 * xs.length) by rw [mul_comm]; exact Nat.div_add_mod _ _] at h6
      have hbuf' : st.2.1 = V / 2 ^ (8 * xs.length + 8) % 2 ^ st.2.2 := by
        rw [hbuf, hD]
      have hbufstep : st.2.1 * 256 + x = V / 2 ^ (8 * xs.length) % 2 ^ (st.2.2 + 8) := by
        calc st.2.1 * 256 + x
            = V / 2 ^ (8 * xs.length) / 2 ^ 8 % 2 ^ st.2.2 * 2 ^ 8 +
              V / 2 ^ (8 * xs.length) % 2 ^ 8 := by
              rw [hbuf', hdd, ← hxval]
              norm_num
          _ = V / 2 ^ (8 * xs.length) % (2 ^ st.2.2 * 2 ^ 8) := h6.symm
          _ = V / 2 ^ (8 * xs.length) % 2 ^ (st.2.2 + 8) := by rw [← pow_add]
      rw [hD] at hbits
      have hinvpre : UnpackInv b N pad codes V (8 * xs.length)
          (st.1, st.2.1 * 256 + x, st.2.2 + 8) := by
        refine ⟨hacc, hlen, ?_, ?_⟩ <;> dsimp only
        · omega
        · exact hbufstep
      have hex := extractMSB_spec b N pad codes hN hc V (8 * xs.length) hV
        (N - st.1.length) (st.2.1 * 256 + x) (st.2.2 + 8) st.1 le_rfl hinvpre
      have hrest' : fromBytesBE xs = V % 2 ^ (8 * xs.length) := by
        rw [← Nat.mod_mod_of_dvd V (pow_dvd_pow 2
          (show 8 * xs.length ≤ 8 * xs.length + 8 by omega)), hsplit,
          mul_comm x (2 ^ (8 * xs.length)), Nat.mul_add_mod,
          Nat.mod_eq_of_lt hxsbound]
      exact unpack_foldl_inv b N pad codes hN hc V hV xs _ hxslt hrest' hex.1 hex.2

/-- Round trip of the v5 bit packing: unpacking with the expected count
recovers exactly the packed indices. -/
theorem unpackBitsMSB_packBitsMSB (b : ℕ) (hb : 1 ≤ b) (codes : List ℕ)
    (hc : ∀ c ∈ codes, c < 2 ^ b) :
    unpackBitsMSB b codes.length (packBitsMSB b codes) = codes := by
  obtain ⟨pad, hpad, hval, hlen, hbytes⟩ := packBitsMSB_spec b codes hc
  have hVlt : baseVal (2 ^ b) codes * 2 ^ pad < 2 ^ (8 * (packBitsMSB b codes).length) := by
    have h1 : baseVal 256 (packBitsMSB b codes) < 256 ^ (packBitsMSB b codes).length :=
      baseVal_lt 256 (by norm_num) _ hbytes
    rw [← fromBytesBE_eq_baseVal, hval] at h1
    rwa [show (256 : ℕ) ^ (packBitsMSB b codes).length =
      2 ^ (8 * (packBitsMSB b codes).length) by
        rw [show (256 : ℕ) = 2 ^ 8 by norm_num, ← pow_mul]] at h1
  have hrest : fromBytesBE (packBitsMSB b codes) =
      (baseVal (2 ^ b) codes * 2 ^ pad) % 2 ^ (8 * (packBitsMSB b codes).length) := by
    rw [hval, Nat.mod_eq_of_lt hVlt]
  have hinv0 : UnpackInv b codes.length pad codes (baseVal (2 ^ b) codes * 2 ^ pad)
      (8 * (packBitsMSB b codes).length) ([], 0, 0) := by
    refine ⟨rfl, by simp, ?_, by dsimp only; rw [pow_zero, Nat.mod_one]⟩
    dsimp only
    simpa using hlen
  have hfin := unpack_foldl_inv b codes.length pad codes rfl hc
    (baseVal (2 ^ b) codes * 2 ^ pad) rfl (packBitsMSB b codes) ([], 0, 0)
    hbytes hrest hinv0 (Or.inl hb)
  obtain ⟨⟨hacc, hlenf, hbits, _⟩, hstopf⟩ := hfin
  have hkN : ((packBitsMSB b codes).foldl (unpackStep b codes.length) ([], 0, 0)).1.length =
      codes.length := by
    rcases hstopf with hlt | hdone
    · by_contra hne
      have hklt : ((packBitsMSB b codes).foldl (unpackStep b codes.length)
          ([], 0, 0)).1.length < codes.length := lt_of_le_of_ne hlenf hne
      have hge : b ≤ b * (codes.length -
          ((packBitsMSB b codes).foldl (unpackStep b codes.length) ([], 0, 0)).1.length) := by
        calc b = b * 1 := (mul_one b).symm
          _ ≤ _ := Nat.mul_le_mul_left b (by omega)
      omega
    · exact hdone
  rw [unpackBitsMSB, hacc, hkN, List.take_length]

/-- Claim C4 fails on the code (a code bug per the spec, which makes the
encoder's growth rules authoritative): the index stream `[0,1,2,0,1]` over
symbols `0..2` (every symbol appears, palette count 3) encodes via
`_lzw_pack_indices_to_bits`, but decoding the resulting version-2 container
raises `Bad compressed code` instead of reconstructing the stream — the
decoder widens its code one code later than the encoder.  The stream
`[0,1,2]` even decodes without error to the wrong indices `[0,1,1,1]`. -/
theorem claim_C4_lzw_decoder_desync :
    decompress c4Container = .error "Bad compressed code" ∧
    lzwDecodePayload maxDictSize 3 (lzwPackIndicesToBits maxDictSize [0, 1, 2]) =
      .ok [0, 1, 1, 1] := by
  exact ⟨rfl, rfl⟩

/-! ## Claim C2: candidate sizes, minimum selection, RawEmbed fallback -/
theorem flatMapTriple_length (l : List Pixel) :
    (l.flatMap (fun p => [p.1, p.2.1, p.2.2])).length = l.length * 3 := by
  induction l with
  | nil => simp
  | cons a l ih =>
      simp [ih]
      ring

theorem mapTriple_sum (l : List Pixel) :
    (List.map (List.length ∘ fun p => ([p.1, p.2.1, p.2.2] : List ℕ)) l).sum =
      l.length * 3 := by
  induction l with
  | nil => simp
  | cons a l ih =>
      simp [ih]
      ring

theorem minBySnd_spec :
    ∀ (l : List (ℕ × ℕ)) (best : ℕ × ℕ),
      (minBySnd l best = best ∨ minBySnd l best ∈ l) ∧
      (minBySnd l best).2 ≤ best.2 ∧ ∀ c ∈ l, (minBySnd l best).2 ≤ c.2
  | [], best => ⟨Or.inl rfl, le_rfl, by simp⟩
  | c :: rest, best => by
      rw [minBySnd]
      have ih := minBySnd_spec rest (if c.2 < best.2 then c else best)
      obtain ⟨hmem, hle, hall⟩ := ih
      refine ⟨?_, ?_, ?_⟩
      · rcases hmem with h | h
        · rw [h]
          split
          · exact Or.inr (List.mem_cons_self ..)
          · exact Or.inl rfl
        · exact Or.inr (List.mem_cons_of_mem _ h)
      · refine le_trans hle ?_
        split <;> omega
      · intro d hd
        rcases List.mem_cons.1 hd with h | h
        · subst h
          refine le_trans hle ?_
          split <;> omega
        · exact hall d h

/-- Claim C2: each candidate total size computed by `compress` for versions
3, 5, 6, 4 equals the exact byte length of the container that would be
written for that version; the selected pair carries the minimum candidate
size and one of the four version tags (its size being that tag's candidate
size); and the written container is the RawEmbed (version 4) container
whenever the minimum does not beat the original size, the chosen version's
container otherwise — `compress` never fails. -/
theorem claim_C2_selector (grid : List (List Pixel)) (orig : List ℕ) :
    (∀ v ∈ ([3, 5, 6, 4] : List ℕ),
      candSize grid orig v = (compressContainer grid orig v).length) ∧
    ((chosenPair grid orig).1 ∈ ([3, 5, 6, 4] : List ℕ) ∧
      (chosenPair grid orig).2 = candSize grid orig (chosenPair grid orig).1 ∧
      ∀ v ∈ ([3, 5, 6, 4] : List ℕ),
        (chosenPair grid orig).2 ≤ candSize grid orig v) ∧
    (orig.length ≤ (chosenPair grid orig).2 →
      compress grid orig = compressContainer grid orig 4) ∧
    ((chosenPair grid orig).2 < orig.length →
      compress grid orig = compressContainer grid orig (chosenPair grid orig).1) := by
  have hsizes : ∀ v ∈ ([3, 5, 6, 4] : List ℕ),
      candSize grid orig v = (compressContainer grid orig v).length := by
    intro v hv
    fin_cases hv <;>
      simp [candSize, compressContainer, baseHeader, magicBytes, toBytesBE_length,
        flatMapTriple_length, mapTriple_sum, List.length_append] <;> omega
  have hspec := minBySnd_spec [(5, candSize grid orig 5), (6, candSize grid orig 6),
    (4, candSize grid orig 4)] (3, candSize grid orig 3)
  obtain ⟨hmem, hle, hall⟩ := hspec
  refine ⟨hsizes, ⟨?_, ?_, ?_⟩, ?_, ?_⟩
  · rcases hmem with h | h
    · rw [show chosenPair grid orig = minBySnd [(5, candSize grid orig 5),
        (6, candSize grid orig 6), (4, candSize grid orig 4)]
        (3, candSize grid orig 3) from rfl, h]
      simp
    · rw [show chosenPair grid orig = minBySnd [(5, candSize grid orig 5),
        (6, candSize grid orig 6), (4, candSize grid orig 4)]
        (3, candSize grid orig 3) from rfl]
      simp only [List.mem_cons, List.not_mem_nil, or_false] at h
      rcases h with h | h | h <;> rw [h] <;> simp
  · rcases hmem with h | h
    · rw [show chosenPair grid orig = minBySnd [(5, candSize grid orig 5),
        (6, candSize grid orig 6), (4, candSize grid orig 4)]
        (3, candSize grid orig 3) from rfl, h]
    · rw [show chosenPair grid orig = minBySnd [(5, candSize grid orig 5),
        (6, candSize grid orig 6), (4, candSize grid orig 4)]
        (3, candSize grid orig 3) from rfl]
      simp only [List.mem_cons, List.not_mem_nil, or_false] at h
      rcases h with h | h | h <;> rw [h]
  · intro v hv
    fin_cases hv
    · exact hle
    · exact hall (5, candSize grid orig 5) (by simp)
    · exact hall (6, candSize grid orig 6) (by simp)
    · exact hall (4, candSize grid orig 4) (by simp)
  · intro hge
    rw [compress, finalVersion, if_pos hge]
  · intro hlt
    rw [compress, finalVersion, if_neg (by omega)]

theorem take_toBytes4 (n : ℕ) (rest : List ℕ) :
    (toBytesBE 4 n ++ rest).take 4 = toBytesBE 4 n := by
  conv_lhs => rw [show (4 : ℕ) = (toBytesBE 4 n).length from (toBytesBE_length 4 n).symm]
  exact List.take_left _ _

theorem drop_toBytes4 (n : ℕ) (rest : List ℕ) :
    (toBytesBE 4 n ++ rest).drop 4 = rest := by
  conv_lhs => rw [show (4 : ℕ) = (toBytesBE 4 n).length from (toBytesBE_length 4 n).symm]
  exact List.drop_left _ _

theorem drop8_mk (v : ℕ) (x : List ℕ) : (magicBytes ++ ([v] ++ x)).drop 8 = x := by
  have h7 : (magicBytes ++ ([v] ++ x)).drop 7 = [v] ++ x := by
    have hlen : magicBytes.length = 7 := rfl
    rw [← hlen]
    exact List.drop_left _ _
  have h1 : (magicBytes ++ ([v] ++ x)).drop 8 =
      ((magicBytes ++ ([v] ++ x)).drop 7).drop 1 := (List.drop_drop 1 7 _).symm
  rw [h1, h7]
  rfl

theorem mkContainer_assoc (version os w h : ℕ) (palette : List Pixel)
    (tail : List ℕ) :
    mkContainer version os w h palette tail =
      magicBytes ++ ([version] ++ (toBytesBE 4 os ++ (toBytesBE 4 w ++ (toBytesBE 4 h ++
        (toBytesBE 4 palette.length ++
          (palette.flatMap (fun p => [p.1, p.2.1, p.2.2]) ++ tail)))))) := by
  simp [mkContainer, List.append_assoc]

theorem mkContainer_drop8 (version os w h : ℕ) (palette : List Pixel) (tail : List ℕ) :
    (mkContainer version os w h palette tail).drop 8 =
      toBytesBE 4 os ++ (toBytesBE 4 w ++ (toBytesBE 4 h ++ (toBytesBE 4 palette.length ++
        (palette.flatMap (fun p => [p.1, p.2.1, p.2.2]) ++ tail)))) := by
  rw [mkContainer_assoc]
  exact drop8_mk _ _

theorem mkContainer_drop (version os w h : ℕ) (palette : List Pixel) (tail : List ℕ) :
    (mkContainer version os w h palette tail).drop 12 =
      toBytesBE 4 w ++ (toBytesBE 4 h ++ (toBytesBE 4 palette.length ++
        (palette.flatMap (fun p => [p.1, p.2.1, p.2.2]) ++ tail))) ∧
    (mkContainer version os w h palette tail).drop 16 =
      toBytesBE 4 h ++ (toBytesBE 4 palette.length ++
        (palette.flatMap (fun p => [p.1, p.2.1, p.2.2]) ++ tail)) ∧
    (mkContainer version os w h palette tail).drop 20 =
      toBytesBE 4 palette.length ++
        (palette.flatMap (fun p => [p.1, p.2.1, p.2.2]) ++ tail) ∧
    (mkContainer version os w h palette tail).drop 24 =
      palette.flatMap (fun p => [p.1, p.2.1, p.2.2]) ++ tail := by
  have h8 := mkContainer_drop8 version os w h palette tail
  have h12 : (mkContainer version os w h palette tail).drop 12 =
      toBytesBE 4 w ++ (toBytesBE 4 h ++ (toBytesBE 4 palette.length ++
        (palette.flatMap (fun p => [p.1, p.2.1, p.2.2]) ++ tail))) := by
    rw [← List.drop_drop 4 8, h8, drop_toBytes4]
  have h16 : (mkContainer version os w h palette tail).drop 16 =
      toBytesBE 4 h ++ (toBytesBE 4 palette.length ++
        (palette.flatMap (fun p => [p.1, p.2.1, p.2.2]) ++ tail)) := by
    rw [← List.drop_drop 4 12, h12, drop_toBytes4]
  have h20 : (mkContainer version os w h palette tail).drop 20 =
      toBytesBE 4 palette.length ++
        (palette.flatMap (fun p => [p.1, p.2.1, p.2.2]) ++ tail) := by
    rw [← List.drop_drop 4 16, h16, drop_toBytes4]
  have h24 : (mkContainer version os w h palette tail).drop 24 =
      palette.flatMap (fun p => [p.1, p.2.1, p.2.2]) ++ tail := by
    rw [← List.drop_drop 4 20, h20, drop_toBytes4]
  exact ⟨h12, h16, h20, h24⟩

theorem readBE4_toBytes {n : ℕ} (hn : n < 2 ^ 32) (rest : List ℕ) :
    fromBytesBE ((toBytesBE 4 n ++ rest).take 4) = n := by
  rw [take_toBytes4]
  exact fromBytesBE_toBytesBE_of_lt (by norm_num at hn ⊢; omega)

theorem mkContainer_fields (version os w h : ℕ) (palette : List Pixel)
    (tail : List ℕ) (hos : os < 2 ^ 32) (hw : w < 2 ^ 32) (hh : h < 2 ^ 32)
    (hpc : palette.length < 2 ^ 32) :
    (mkContainer version os w h palette tail).take 7 = magicBytes ∧
    (mkContainer version os w h palette tail).get? 7 = some version ∧
    readBE4 (mkContainer version os w h palette tail) 8 = os ∧
    readBE4 (mkContainer version os w h palette tail) 12 = w ∧
    readBE4 (mkContainer version os w h palette tail) 16 = h ∧
    readBE4 (mkContainer version os w h palette tail) 20 = palette.length := by
  obtain ⟨h12, h16, h20, _⟩ := mkContainer_drop version os w h palette tail
  refine ⟨?_, ?_, ?_, ?_, ?_, ?_⟩
  · rw [mkContainer_assoc]
    have hlen : magicBytes.length = 7 := rfl
    rw [← hlen]
    exact List.take_left _ _
  · rw [mkContainer_assoc]
    rw [List.get?_append_right (by simp [magicBytes])]
    rfl
  · rw [readBE4, mkContainer_drop8]
    exact readBE4_toBytes hos _
  · rw [readBE4, h12]
    exact readBE4_toBytes hw _
  · rw [readBE4, h16]
    exact readBE4_toBytes hh _
  · rw [readBE4, h20]
    exact readBE4_toBytes hpc _

theorem readPalette_flatMap (palette : List Pixel) (tail : List ℕ) :
    readPalette palette.length
      (palette.flatMap (fun p => [p.1, p.2.1, p.2.2]) ++ tail) = .ok palette := by
  induction palette with
  | nil => rfl
  | cons p ps ih =>
      obtain ⟨r, g, b⟩ := p
      rw [show ((r, g, b) :: ps).flatMap (fun p => [p.1, p.2.1, p.2.2]) ++ tail =
        r :: g :: b :: (ps.flatMap (fun p => [p.1, p.2.1, p.2.2]) ++ tail) by simp]
      rw [List.length_cons, readPalette, ih]

theorem drop_flatMapTriple (palette : List Pixel) (tail : List ℕ) :
    (palette.flatMap (fun p => [p.1, p.2.1, p.2.2]) ++ tail).drop
      (3 * palette.length) = tail := by
  conv_lhs =>
    rw [show 3 * palette.length =
      (palette.flatMap (fun p => [p.1, p.2.1, p.2.2])).length by
        rw [flatMapTriple_length]; ring]
  exact List.drop_left _ _

/-- `decompress` on a well-formed container dispatches to the version's
decoder applied to the tail. -/
theorem decompress_mkContainer (version os w h : ℕ) (palette : List Pixel)
    (tail : List ℕ) (hver : version ∈ ([2, 3, 4, 5, 6] : List ℕ))
    (hos : os < 2 ^ 32) (hw : w < 2 ^ 32) (hh : h < 2 ^ 32)
    (hpc : palette.length < 2 ^ 32) :
    decompress (mkContainer version os w h palette tail) =
      (if version = 3 then decodeV3 tail palette w h os
       else if version = 5 then decodeV5 tail palette w h os
       else if version = 6 then decodeV6 tail palette w h os
       else if version = 4 then decodeV4 tail os
       else decodeV2 tail palette palette.length w h os) := by
  obtain ⟨hmag, hget, hos', hw', hh', hpc'⟩ :=
    mkContainer_fields version os w h palette tail hos hw hh hpc
  obtain ⟨_, _, _, h24⟩ := mkContainer_drop version os w h palette tail
  rw [decompress, if_neg (by rw [hmag]; exact fun hcon => hcon rfl), hget]
  dsimp only
  rw [if_neg (fun hn => hn hver)]
  rw [hpc', h24, readPalette_flatMap, drop_flatMapTriple, hos', hw', hh']

/-! ## Claims C9 and C10: output grid shape and palette membership -/
theorem reshape_length (pixels : List Pixel) (w h : ℕ) :
    (reshape pixels w h).length = h := by
  simp [reshape]

theorem reshape_row_length {pixels : List Pixel} {w h : ℕ} {row : List Pixel}
    (hr : row ∈ reshape pixels w h) : row.length = w := by
  rw [reshape] at hr
  obtain ⟨r, -, rfl⟩ := List.mem_map.mp hr
  simp [reshapeRow]

theorem reshape_mem {pixels : List Pixel} {w h : ℕ} {row : List Pixel}
    {p : Pixel} (hr : row ∈ reshape pixels w h) (hp : p ∈ row) :
    p ∈ pixels ∨ p = (0, 0, 0) := by
  rw [reshape] at hr
  obtain ⟨r, -, rfl⟩ := List.mem_map.mp hr
  rw [reshapeRow] at hp
  obtain ⟨c, -, rfl⟩ := List.mem_map.mp hp
  by_cases hc : r * w + c < pixels.length
  · rw [if_pos hc]
    left
    rw [List.getD_eq_getElem?_getD, List.getElem?_eq_getElem hc]
    simp only [Option.getD_some]
    exact List.getElem_mem hc
  · rw [if_neg hc]
    right
    rfl

theorem pixelOf_mem_or_black (palette : List Pixel) (i : ℕ) :
    pixelOf palette i ∈ palette ∨ pixelOf palette i = (0, 0, 0) := by
  rw [pixelOf]
  by_cases hi : i < palette.length
  · rw [if_pos hi]
    left
    rw [List.getD_eq_getElem?_getD, List.getElem?_eq_getElem hi]
    simp only [Option.getD_some]
    exact List.getElem_mem hi
  · rw [if_neg hi]
    right
    rfl

theorem pixelOf_oob (palette : List Pixel) (i : ℕ) (hi : palette.length ≤ i) :
    pixelOf palette i = (0, 0, 0) := by
  rw [pixelOf, if_neg (by omega)]

/-- Every successful v3 decode is a reshape of palette-mapped indices with
the header's dimensions. -/
theorem decodeV3_ok_shape {rest : List ℕ} {palette : List Pixel} {w h os : ℕ}
    {res : List (List Pixel) × ℕ × ℕ × ℕ}
    (hok : decodeV3 rest palette w h os = .ok res) :
    ∃ idxs : List ℕ, res = (reshape (idxs.map (pixelOf palette)) w h, w, h, os) := by
  rw [decodeV3.eq_def] at hok
  split at hok
  · simp at hok
  · split at hok
    · simp at hok
    · split at hok
      · simp at hok
      · split at hok
        · simp at hok
        · split at hok
          · simp at hok
          · injection hok with h2
            exact ⟨_, h2.symm⟩

/-- Every successful v5 decode is a reshape of palette-mapped indices with
the header's dimensions. -/
theorem decodeV5_ok_shape {rest : List ℕ} {palette : List Pixel} {w h os : ℕ}
    {res : List (List Pixel) × ℕ × ℕ × ℕ}
    (hok : decodeV5 rest palette w h os = .ok res) :
    ∃ idxs : List ℕ, res = (reshape (idxs.map (pixelOf palette)) w h, w, h, os) := by
  rw [decodeV5.eq_def] at hok
  split at hok
  · simp at hok
  · split at hok
    · simp at hok
    · split at hok
      · simp at hok
      · split at hok
        · simp at hok
        · injection hok with h2
          exact ⟨_, h2.symm⟩

/-- Every successful v6 decode is a reshape of palette-mapped indices with
the header's dimensions. -/
theorem decodeV6_ok_shape {rest : List ℕ} {palette : List Pixel} {w h os : ℕ}
    {res : List (List Pixel) × ℕ × ℕ × ℕ}
    (hok : decodeV6 rest palette w h os = .ok res) :
    ∃ idxs : List ℕ, res = (reshape (idxs.map (pixelOf palette)) w h, w, h, os) := by
  rw [decodeV6.eq_def] at hok
  split at hok
  · simp at hok
  · split at hok
    · simp at hok
    · split at hok
      · simp at hok
      · split at hok
        · simp at hok
        · split at hok
          · simp at hok
          · split at hok
            · simp at hok
            · injection hok with h2
              exact ⟨_, h2.symm⟩

/-- Pixels of a reshaped palette-mapped index list are palette members or
black. -/
theorem mapped_pixels_mem {palette : List Pixel} {w h : ℕ} {idxs : List ℕ}
    {row : List Pixel} {p : Pixel}
    (hr : row ∈ reshape (idxs.map (pixelOf palette)) w h) (hp : p ∈ row) :
    p ∈ palette ∨ p = (0, 0, 0) := by
  rcases reshape_mem hr hp with hmem | hb
  · obtain ⟨i, -, rfl⟩ := List.mem_map.mp hmem
    exact pixelOf_mem_or_black palette i
  · exact Or.inr hb

/-- **C9.** For every version 3, 5, or 6 container that `decompress` returns
a result for, the returned grid has exactly `height` rows and every row has
exactly `width` triples (`height` and `width` being the values `decompress`
also returns), however many indices the payload decoded to. -/
theorem claim_C9_output_grid_dimensions (data : List ℕ) (v : ℕ)
    (res : List (List Pixel) × ℕ × ℕ × ℕ)
    (hv : data.get? 7 = some v) (hver : v ∈ ([3, 5, 6] : List ℕ))
    (hok : decompress data = .ok res) :
    res.1.length = res.2.2.1 ∧ ∀ row ∈ res.1, row.length = res.2.1 := by
  rw [decompress] at hok
  split at hok
  · simp at hok
  · rw [hv] at hok
    dsimp only at hok
    split at hok
    · simp at hok
    · rcases hpal : readPalette (readBE4 data 20) (data.drop 24) with e | palette
      · rw [hpal] at hok
        simp at hok
      · rw [hpal] at hok
        dsimp only at hok
        simp only [List.mem_cons, List.not_mem_nil, or_false] at hver
        rcases hver with rfl | rfl | rfl
        · rw [if_pos rfl] at hok
          obtain ⟨idxs, rfl⟩ := decodeV3_ok_shape hok
          exact ⟨reshape_length _ _ _, fun row hr => reshape_row_length hr⟩
        · rw [if_neg (by decide), if_pos rfl] at hok
          obtain ⟨idxs, rfl⟩ := decodeV5_ok_shape hok
          exact ⟨reshape_length _ _ _, fun row hr => reshape_row_length hr⟩
        · rw [if_neg (by decide), if_neg (by decide), if_pos rfl] at hok
          obtain ⟨idxs, rfl⟩ := decodeV6_ok_shape hok
          exact ⟨reshape_length _ _ _, fun row hr => reshape_row_length hr⟩

theorem claim_C9_output_grid_dimensions_witness :
    c9Res.1.length = c9Res.2.2.1 ∧ ∀ row ∈ c9Res.1, row.length = c9Res.2.1 :=
  claim_C9_output_grid_dimensions c9Data 5 c9Res rfl (by decide) rfl

/-- **C10.** Out-of-range palette indices render as black: the shared lookup
maps every index at or past the palette's length to `(0,0,0)` without error,
and consequently every pixel of a grid that a version 3, 5, or 6 container
decodes to is a member of the container's parsed palette or black. -/
theorem claim_C10_oob_index_black (data : List ℕ) (v : ℕ)
    (res : List (List Pixel) × ℕ × ℕ × ℕ)
    (hv : data.get? 7 = some v) (hver : v ∈ ([3, 5, 6] : List ℕ))
    (hok : decompress data = .ok res) :
    (∀ palette : List Pixel, ∀ i : ℕ, palette.length ≤ i →
      pixelOf palette i = (0, 0, 0)) ∧
    ∃ palette : List Pixel,
      readPalette (readBE4 data 20) (data.drop 24) = .ok palette ∧
      ∀ row ∈ res.1, ∀ p ∈ row, p ∈ palette ∨ p = (0, 0, 0) := by
  refine ⟨fun palette i hi => pixelOf_oob palette i hi, ?_⟩
  rw [decompress] at hok
  split at hok
  · simp at hok
  · rw [hv] at hok
    dsimp only at hok
    split at hok
    · simp at hok
    · rcases hpal : readPalette (readBE4 data 20) (data.drop 24) with e | palette
      · rw [hpal] at hok
        simp at hok
      · rw [hpal] at hok
        dsimp only at hok
        refine ⟨palette, rfl, ?_⟩
        simp only [List.mem_cons, List.not_mem_nil, or_false] at hver
        rcases hver with rfl | rfl | rfl
        · rw [if_pos rfl] at hok
          obtain ⟨idxs, rfl⟩ := decodeV3_ok_shape hok
          exact fun row hr p hp => mapped_pixels_mem hr hp
        · rw [if_neg (by decide), if_pos rfl] at hok
          obtain ⟨idxs, rfl⟩ := decodeV5_ok_shape hok
          exact fun row hr p hp => mapped_pixels_mem hr hp
        · rw [if_neg (by decide), if_neg (by decide), if_pos rfl] at hok
          obtain ⟨idxs, rfl⟩ := decodeV6_ok_shape hok
          exact fun row hr p hp => mapped_pixels_mem hr hp

theorem claim_C10_oob_index_black_witness :
    (∀ palette : List Pixel, ∀ i : ℕ, palette.length ≤ i →
      pixelOf palette i = (0, 0, 0)) ∧
    ∃ palette : List Pixel,
      readPalette (readBE4 c10Data 20) (c10Data.drop 24) = .ok palette ∧
      ∀ row ∈ c10Res.1, ∀ p ∈ row, p ∈ palette ∨ p = (0, 0, 0) :=
  claim_C10_oob_index_black c10Data 3 c10Res rfl (by decide) rfl

/-! ## Claim C5: truncation tolerance (black fill) -/
theorem getD_zero_mem {l : List ℕ} (h : l ≠ []) : l.getD 0 0 ∈ l := by
  cases l with
  | nil => exact absurd rfl h
  | cons a t => exact List.mem_cons_self a t

theorem getD_zero_append {l : List ℕ} (z : ℕ) (h : l ≠ []) :
    (l ++ [z]).getD 0 0 = l.getD 0 0 := by
  cases l with
  | nil => exact absurd rfl h
  | cons a t => rfl

/-- Index-range invariant of the v2 LZW decode loop: if every dictionary
entry is a nonempty list of indices below `pl` and the accumulator holds
only indices below `pl`, every index of a successful decode is below
`pl`. -/
theorem lzwDecLoop_bound (maxDict : ℕ) (packed : List ℕ) (pl : ℕ) :
    ∀ fuel : ℕ, ∀ dict : ℕ → Option (List ℕ),
      ∀ dictSize codeWidth prev buf cnt pos : ℕ, ∀ acc idxs : List ℕ,
      (∀ c l, dict c = some l → l ≠ [] ∧ ∀ x ∈ l, x < pl) →
      (∀ x ∈ acc, x < pl) →
      lzwDecLoop maxDict packed fuel dict dictSize codeWidth prev buf cnt pos
        acc = .ok idxs →
      ∀ x ∈ idxs, x < pl := by
  intro fuel
  induction fuel with
  | zero =>
      intro dict _ _ _ _ _ _ acc idxs _ _ hok
      simp [lzwDecLoop] at hok
  | succ fuel ih =>
      intro dict dictSize codeWidth prev buf cnt pos acc idxs hdict hacc hok
      rw [lzwDecLoop] at hok
      rcases hrb : readBits packed
          (if dictSize = 2 ^ codeWidth then codeWidth + 1 else codeWidth)
          buf cnt pos with _ | ⟨code, buf', cnt', pos'⟩
      · rw [hrb] at hok
        dsimp only at hok
        injection hok with h2
        exact fun x hx => hacc x (h2 ▸ hx)
      · rw [hrb] at hok
        dsimp only at hok
        rcases hdc : dict code with _ | entry
        · rw [hdc] at hok
          dsimp only at hok
          by_cases hcd : code = dictSize
          · rw [if_pos hcd] at hok
            rcases hdp : dict prev with _ | prevEntry
            · rw [hdp] at hok
              simp at hok
            · rw [hdp] at hok
              dsimp only at hok
              obtain ⟨hne, hbd⟩ := hdict prev prevEntry hdp
              refine ih _ _ _ _ _ _ _ _ _ ?_ ?_ hok
              · intro c l hl
                by_cases hsz : dictSize < maxDict
                · rw [if_pos hsz] at hl
                  by_cases hc : c = dictSize
                  · rw [if_pos hc] at hl
                    injection hl with hl
                    subst hl
                    refine ⟨by simp, ?_⟩
                    intro x hx
                    rcases List.mem_append.mp hx with hx | hx
                    · exact hbd x hx
                    · rw [List.mem_singleton] at hx
                      subst hx
                      rw [getD_zero_append _ hne]
                      exact hbd _ (getD_zero_mem hne)
                  · rw [if_neg hc] at hl
                    exact hdict c l hl
                · rw [if_neg hsz] at hl
                  exact hdict c l hl
              · intro x hx
                rcases List.mem_append.mp hx with hx | hx
                · exact hacc x hx
                · rcases List.mem_append.mp hx with hx | hx
                  · exact hbd x hx
                  · rw [List.mem_singleton] at hx
                    subst hx
                    exact hbd _ (getD_zero_mem hne)
          · rw [if_neg hcd] at hok
            simp at hok
        · rw [hdc] at hok
          dsimp only at hok
          obtain ⟨hne, hbd⟩ := hdict code entry hdc
          refine ih _ _ _ _ _ _ _ _ _ ?_ ?_ hok
          · intro c l hl
            by_cases hsz : dictSize < maxDict
            · rw [if_pos hsz] at hl
              by_cases hc : c = dictSize
              · rw [if_pos hc] at hl
                injection hl with hl
                subst hl
                refine ⟨by simp, ?_⟩
                intro x hx
                rcases List.mem_append.mp hx with hx | hx
                · rcases hdp : dict prev with _ | pe
                  · rw [hdp] at hx
                    simp at hx
                  · rw [hdp] at hx
                    exact (hdict prev pe hdp).2 x hx
                · rw [List.mem_singleton] at hx
                  subst hx
                  exact hbd _ (getD_zero_mem hne)
              · rw [if_neg hc] at hl
                exact hdict c l hl
            · rw [if_neg hsz] at hl
              exact hdict c l hl
          · intro x hx
            rcases List.mem_append.mp hx with hx | hx
            · exact hacc x hx
            · exact hbd x hx

/-- Every index a successful `lzwDecodePayload` emits is below the palette
length. -/
theorem lzwDecodePayload_bound (pl : ℕ) (packed idxs : List ℕ)
    (h : lzwDecodePayload maxDictSize pl packed = .ok idxs) :
    ∀ x ∈ idxs, x < pl := by
  rw [lzwDecodePayload] at h
  rcases hrb : readBits packed (max 1 (bitLen (pl - 1))) 0 0 0 with
    _ | ⟨first, buf, cnt, pos⟩
  · rw [hrb] at h
    dsimp only at h
    injection h with h2
    intro x hx
    rw [← h2] at hx
    simp at hx
  · rw [hrb] at h
    dsimp only at h
    by_cases hf : first < pl
    · rw [if_pos hf] at h
      refine lzwDecLoop_bound maxDictSize packed pl _ _ _ _ _ _ _ _ _ _ ?_ ?_ h
      · intro c l hl
        by_cases hc : c < pl
        · rw [if_pos hc] at hl
          injection hl with hl
          subst hl
          refine ⟨by simp, ?_⟩
          intro x hx
          rw [List.mem_singleton] at hx
          subst hx
          exact hc
        · rw [if_neg hc] at hl
          exact Option.noConfusion hl
      · intro x hx
        rw [List.mem_singleton] at hx
        subst hx
        exact hf
    · rw [if_neg hf] at h
      simp at h

/-- When every index is in range, the strict v2 palette mapping succeeds and
equals the plain lookup map. -/
theorem mapStrict_ok_of_lt (palette : List Pixel) (idxs : List ℕ)
    (h : ∀ i ∈ idxs, i < palette.length) :
    mapStrict palette idxs =
      .ok (idxs.map (fun i => palette.getD i (0, 0, 0))) := by
  induction idxs with
  | nil => rfl
  | cons i rest ih =>
      rw [mapStrict, if_pos (h i (List.mem_cons_self i rest)),
        ih (fun j hj => h j (List.mem_cons_of_mem i hj))]
      rfl

/-- The v3 decoder on a well-formed tail. -/
theorem decodeV3_mkTail (palette : List Pixel) (w h os bpi : ℕ)
    (payload : List ℕ) (hplen : payload.length < 2 ^ 32) (hbpi : bpi ≠ 0)
    (hmod : payload.length % bpi = 0) :
    decodeV3 (bpi :: (toBytesBE 4 payload.length ++ payload)) palette w h os =
      .ok (reshape ((decodeChunks bpi payload).map (pixelOf palette)) w h,
        w, h, os) := by
  have hlen4 : (toBytesBE 4 payload.length ++ payload).length =
      4 + payload.length := by
    rw [List.length_append, toBytesBE_length]
  have htake : fromBytesBE ((toBytesBE 4 payload.length ++ payload).take 4) =
      payload.length := readBE4_toBytes hplen payload
  rw [decodeV3, hlen4, htake, drop_toBytes4, List.take_length,
    if_neg (by omega), if_neg (lt_irrefl _), if_neg hbpi,
    if_neg (fun hn => hn hmod)]

/-- The v5 decoder on a well-formed tail with enough unpacked indices. -/
theorem decodeV5_mkTail (palette : List Pixel) (w h os bits : ℕ)
    (payload : List ℕ) (hplen : payload.length < 2 ^ 32)
    (hunp : ¬ (unpackBitsMSB bits (w * h) payload).length < w * h) :
    decodeV5 (bits :: (toBytesBE 4 payload.length ++ payload)) palette w h os =
      .ok (reshape (((unpackBitsMSB bits (w * h) payload).take (w * h)).map
        (pixelOf palette)) w h, w, h, os) := by
  have hlen4 : (toBytesBE 4 payload.length ++ payload).length =
      4 + payload.length := by
    rw [List.length_append, toBytesBE_length]
  have htake : fromBytesBE ((toBytesBE 4 payload.length ++ payload).take 4) =
      payload.length := readBE4_toBytes hplen payload
  rw [decodeV5, hlen4, htake, drop_toBytes4, List.take_length,
    if_neg (by omega), if_neg (lt_irrefl _), if_neg hunp]

/-- The v6 decoder on a well-formed tail whose payload LZ-decompresses. -/
theorem decodeV6_mkTail (palette : List Pixel) (w h os bpi : ℕ)
    (payload raw : List ℕ) (hplen : payload.length < 2 ^ 32)
    (hlz : lzDecompress payload = .ok raw) (hbpi : bpi ≠ 0)
    (hmod : raw.length % bpi = 0) :
    decodeV6 (bpi :: (toBytesBE 4 payload.length ++ payload)) palette w h os =
      .ok (reshape ((decodeChunks bpi raw).map (pixelOf palette)) w h,
        w, h, os) := by
  have hlen4 : (toBytesBE 4 payload.length ++ payload).length =
      4 + payload.length := by
    rw [List.length_append, toBytesBE_length]
  have htake : fromBytesBE ((toBytesBE 4 payload.length ++ payload).take 4) =
      payload.length := readBE4_toBytes hplen payload
  rw [decodeV6, hlen4, htake, drop_toBytes4, List.take_length,
    if_neg (by omega), if_neg (lt_irrefl _), hlz]
  dsimp only
  rw [if_neg hbpi, if_neg (fun hn => hn hmod)]

/-- The v2 decoder on a well-formed tail whose payload LZW-decodes. -/
theorem decodeV2_mkTail (palette : List Pixel) (paletteLen w h os : ℕ)
    (payload idxs : List ℕ) (pixels : List Pixel)
    (hplen : payload.length < 2 ^ 32)
    (hdec : lzwDecodePayload maxDictSize paletteLen payload = .ok idxs)
    (hms : mapStrict palette idxs = .ok pixels) :
    decodeV2 (toBytesBE 4 payload.length ++ payload) palette paletteLen
      w h os = .ok (reshape pixels w h, w, h, os) := by
  have hlen4 : (toBytesBE 4 payload.length ++ payload).length =
      4 + payload.length := by
    rw [List.length_append, toBytesBE_length]
  have htake : fromBytesBE ((toBytesBE 4 payload.length ++ payload).take 4) =
      payload.length := readBE4_toBytes hplen payload
  rw [decodeV2, hlen4, htake, drop_toBytes4, List.take_length,
    if_neg (by omega), if_neg (lt_irrefl _), hdec]
  dsimp only
  rw [hms]

/-- Reading a reshape result at an in-bounds position past the decoded
pixel list yields black. -/
theorem reshape_past_black (pixels : List Pixel) (w h r c : ℕ) (hr : r < h)
    (hc : c < w) (hpast : pixels.length ≤ r * w + c) :
    ((reshape pixels w h).getD r []).getD c (255, 255, 255) = (0, 0, 0) := by
  have hrow : (reshape pixels w h).getD r [] = reshapeRow pixels (r * w) w := by
    rw [reshape, List.getD_eq_getElem?_getD, List.getElem?_map,
      List.getElem?_range hr]
    simp only [Option.map_some', Option.getD_some]
  rw [hrow, reshapeRow, List.getD_eq_getElem?_getD, List.getElem?_map,
    List.getElem?_range hc]
  simp only [Option.map_some', Option.getD_some]
  rw [if_neg (by omega)]

/-- **C5 (amended).** Truncation tolerance holds for versions 3, 6 and 2:
whatever number of indices the payload decodes to, `decompress` succeeds and
returns the reshape of the decoded pixels, and every in-bounds grid position
at or past the decoded pixel count reads black.  (The claim's "does not
fail" is false for version 5, which instead errors when the bit-packed
payload yields fewer than `width*height` indices — see the
counterexample.) -/
theorem claim_C5_truncation_tolerance :
    (∀ (os w h : ℕ) (palette : List Pixel) (bpi : ℕ) (payload : List ℕ),
      os < 2 ^ 32 → w < 2 ^ 32 → h < 2 ^ 32 → palette.length < 2 ^ 32 →
      payload.length < 2 ^ 32 → bpi ≠ 0 → payload.length % bpi = 0 →
      decompress (mkContainer 3 os w h palette
          (bpi :: (toBytesBE 4 payload.length ++ payload))) =
        .ok (reshape ((decodeChunks bpi payload).map (pixelOf palette)) w h,
          w, h, os)) ∧
    (∀ (os w h : ℕ) (palette : List Pixel) (bpi : ℕ) (payload raw : List ℕ),
      os < 2 ^ 32 → w < 2 ^ 32 → h < 2 ^ 32 → palette.length < 2 ^ 32 →
      payload.length < 2 ^ 32 → lzDecompress payload = .ok raw → bpi ≠ 0 →
      raw.length % bpi = 0 →
      decompress (mkContainer 6 os w h palette
          (bpi :: (toBytesBE 4 payload.length ++ payload))) =
        .ok (reshape ((decodeChunks bpi raw).map (pixelOf palette)) w h,
          w, h, os)) ∧
    (∀ (os w h : ℕ) (palette : List Pixel) (payload idxs : List ℕ),
      os < 2 ^ 32 → w < 2 ^ 32 → h < 2 ^ 32 → palette.length < 2 ^ 32 →
      payload.length < 2 ^ 32 →
      lzwDecodePayload maxDictSize palette.length payload = .ok idxs →
      decompress (mkContainer 2 os w h palette
          (toBytesBE 4 payload.length ++ payload)) =
        .ok (reshape (idxs.map (fun i => palette.getD i (0, 0, 0))) w h,
          w, h, os)) ∧
    (∀ (pixels : List Pixel) (w h r c : ℕ), r < h → c < w →
      pixels.length ≤ r * w + c →
      (reshape pixels w h).length = h ∧
      (∀ row ∈ reshape pixels w h, row.length = w) ∧
      ((reshape pixels w h).getD r []).getD c (255, 255, 255) = (0, 0, 0)) := by
  refine ⟨?_, ?_, ?_, ?_⟩
  · intro os w h palette bpi payload hos hw hh hpc hplen hbpi hmod
    rw [decompress_mkContainer 3 os w h palette _ (by decide) hos hw hh hpc,
      if_pos rfl]
    exact decodeV3_mkTail palette w h os bpi payload hplen hbpi hmod
  · intro os w h palette bpi payload raw hos hw hh hpc hplen hlz hbpi hmod
    rw [decompress_mkContainer 6 os w h palette _ (by decide) hos hw hh hpc,
      if_neg (by decide), if_neg (by decide), if_pos rfl]
    exact decodeV6_mkTail palette w h os bpi payload raw hplen hlz hbpi hmod
  · intro os w h palette payload idxs hos hw hh hpc hplen hdec
    rw [decompress_mkContainer 2 os w h palette _ (by decide) hos hw hh hpc,
      if_neg (by decide), if_neg (by decide), if_neg (by decide),
      if_neg (by decide)]
    exact decodeV2_mkTail palette palette.length w h os payload idxs _ hplen
      hdec (mapStrict_ok_of_lt palette idxs
        (lzwDecodePayload_bound palette.length payload idxs hdec))
  · intro pixels w h r c hr hc hpast
    exact ⟨reshape_length pixels w h, fun row hrow => reshape_row_length hrow,
      reshape_past_black pixels w h r c hr hc hpast⟩

theorem claim_C5_truncation_tolerance_witness :
    decompress (mkContainer 3 10 2 2 [(9, 9, 9)]
        (1 :: (toBytesBE 4 1 ++ [0]))) =
      .ok (reshape ((decodeChunks 1 [0]).map (pixelOf [(9, 9, 9)])) 2 2,
        2, 2, 10) ∧
    ((reshape ((decodeChunks 1 [0]).map (pixelOf [(9, 9, 9)])) 2 2).getD 1
      []).getD 1 (255, 255, 255) = (0, 0, 0) :=
  ⟨by
    have h1 := claim_C5_truncation_tolerance.1 10 2 2 [(9, 9, 9)] 1 [0]
      (by decide) (by decide) (by decide) (by decide) (by decide) (by decide)
      (by decide)
    rw [show (([0] : List ℕ)).length = 1 from rfl] at h1
    exact h1,
   by
    have h2 := (claim_C5_truncation_tolerance.2.2.2
      ((decodeChunks 1 [0]).map (pixelOf [(9, 9, 9)])) 2 2 1 1
      (by decide) (by decide) (by decide)).2.2
    exact h2⟩

/-- **C5 counterexample.**  The version-5 branch fails on a payload that
decodes to fewer than `width*height` indices instead of black-filling. -/
theorem claim_C5_counterexample :
    (unpackBitsMSB 1 (2 * 2) []).length < 2 * 2 ∧
    decompress c5Data =
      .error "Corrupt payload: not enough indices in bit-packed payload" :=
  ⟨by decide, rfl⟩

/-! ## Claim C8: decompress error handling -/
theorem decodeV3_truncated (palette : List Pixel) (w h os bpi declLen : ℕ)
    (payload : List ℕ) (hdl : declLen < 2 ^ 32)
    (hshort : payload.length < declLen) :
    decodeV3 (bpi :: (toBytesBE 4 declLen ++ payload)) palette w h os =
      .error "Corrupt file: truncated payload" := by
  have hlen4 : (toBytesBE 4 declLen ++ payload).length = 4 + payload.length := by
    rw [List.length_append, toBytesBE_length]
  have htake : fromBytesBE ((toBytesBE 4 declLen ++ payload).take 4) =
      declLen := readBE4_toBytes hdl payload
  rw [decodeV3, hlen4, htake, drop_toBytes4, if_neg (by omega),
    if_pos hshort]

theorem decodeV5_truncated (palette : List Pixel) (w h os bits declLen : ℕ)
    (payload : List ℕ) (hdl : declLen < 2 ^ 32)
    (hshort : payload.length < declLen) :
    decodeV5 (bits :: (toBytesBE 4 declLen ++ payload)) palette w h os =
      .error "Corrupt file: truncated payload" := by
  have hlen4 : (toBytesBE 4 declLen ++ payload).length = 4 + payload.length := by
    rw [List.length_append, toBytesBE_length]
  have htake : fromBytesBE ((toBytesBE 4 declLen ++ payload).take 4) =
      declLen := readBE4_toBytes hdl payload
  rw [decodeV5, hlen4, htake, drop_toBytes4, if_neg (by omega),
    if_pos hshort]

theorem decodeV6_truncated (palette : List Pixel) (w h os bpi declLen : ℕ)
    (payload : List ℕ) (hdl : declLen < 2 ^ 32)
    (hshort : payload.length < declLen) :
    decodeV6 (bpi :: (toBytesBE 4 declLen ++ payload)) palette w h os =
      .error "Corrupt file: truncated payload" := by
  have hlen4 : (toBytesBE 4 declLen ++ payload).length = 4 + payload.length := by
    rw [List.length_append, toBytesBE_length]
  have htake : fromBytesBE ((toBytesBE 4 declLen ++ payload).take 4) =
      declLen := readBE4_toBytes hdl payload
  rw [decodeV6, hlen4, htake, drop_toBytes4, if_neg (by omega),
    if_pos hshort]

theorem decodeV2_truncated (palette : List Pixel) (paletteLen w h os : ℕ)
    (declLen : ℕ) (payload : List ℕ) (hdl : declLen < 2 ^ 32)
    (hshort : payload.length < declLen) :
    decodeV2 (toBytesBE 4 declLen ++ payload) palette paletteLen w h os =
      .error "Corrupt file: truncated payload" := by
  have hlen4 : (toBytesBE 4 declLen ++ payload).length = 4 + payload.length := by
    rw [List.length_append, toBytesBE_length]
  have htake : fromBytesBE ((toBytesBE 4 declLen ++ payload).take 4) =
      declLen := readBE4_toBytes hdl payload
  rw [decodeV2, hlen4, htake, drop_toBytes4, if_neg (by omega),
    if_pos hshort]

theorem decodeV4_truncated (os declLen : ℕ) (payload : List ℕ)
    (hdl : declLen < 2 ^ 32) (hshort : payload.length < declLen) :
    decodeV4 (toBytesBE 4 declLen ++ payload) os =
      .error "Corrupt file: truncated payload" := by
  have hlen4 : (toBytesBE 4 declLen ++ payload).length = 4 + payload.length := by
    rw [List.length_append, toBytesBE_length]
  have htake : fromBytesBE ((toBytesBE 4 declLen ++ payload).take 4) =
      declLen := readBE4_toBytes hdl payload
  rw [decodeV4, hlen4, htake, drop_toBytes4, if_neg (by omega),
    if_pos hshort]

/-- **C8.** `decompress` rejects inputs whose first seven bytes are not the
magic with an error before reading anything else; rejects unknown version
bytes with the unsupported-version error; and for every version rejects a
declared payload length that extends past the available bytes with the
truncated-payload error (the length check precedes any payload access, so
nothing is read out of bounds). -/
theorem claim_C8_decompress_error_handling :
    (∀ data : List ℕ, data.take 7 ≠ magicBytes →
      decompress data = .error "Not a CMPT365 file") ∧
    (∀ data : List ℕ, ∀ v : ℕ, data.take 7 = magicBytes →
      data.get? 7 = some v → v ∉ ([2, 3, 4, 5, 6] : List ℕ) →
      decompress data = .error "Unsupported CMPT365 version") ∧
    (∀ version os w h : ℕ, ∀ palette : List Pixel, ∀ bpi declLen : ℕ,
      ∀ payload : List ℕ, version ∈ ([3, 5, 6] : List ℕ) →
      os < 2 ^ 32 → w < 2 ^ 32 → h < 2 ^ 32 → palette.length < 2 ^ 32 →
      declLen < 2 ^ 32 → payload.length < declLen →
      decompress (mkContainer version os w h palette
          (bpi :: (toBytesBE 4 declLen ++ payload))) =
        .error "Corrupt file: truncated payload") ∧
    (∀ version os w h : ℕ, ∀ palette : List Pixel, ∀ declLen : ℕ,
      ∀ payload : List ℕ, version ∈ ([2, 4] : List ℕ) →
      os < 2 ^ 32 → w < 2 ^ 32 → h < 2 ^ 32 → palette.length < 2 ^ 32 →
      declLen < 2 ^ 32 → payload.length < declLen →
      decompress (mkContainer version os w h palette
          (toBytesBE 4 declLen ++ payload)) =
        .error "Corrupt file: truncated payload") := by
  refine ⟨?_, ?_, ?_, ?_⟩
  · intro data hm
    rw [decompress, if_pos hm]
  · intro data v hm hv hnot
    rw [decompress, if_neg (not_not_intro hm), hv]
    dsimp only
    rw [if_pos hnot]
  · intro version os w h palette bpi declLen payload hver hos hw hh hpc hdl
      hshort
    simp only [List.mem_cons, List.not_mem_nil, or_false] at hver
    rcases hver with rfl | rfl | rfl
    · rw [decompress_mkContainer 3 os w h palette _ (by decide) hos hw hh hpc,
        if_pos rfl]
      exact decodeV3_truncated palette w h os bpi declLen payload hdl hshort
    · rw [decompress_mkContainer 5 os w h palette _ (by decide) hos hw hh hpc,
        if_neg (by decide), if_pos rfl]
      exact decodeV5_truncated palette w h os bpi declLen payload hdl hshort
    · rw [decompress_mkContainer 6 os w h palette _ (by decide) hos hw hh hpc,
        if_neg (by decide), if_neg (by decide), if_pos rfl]
      exact decodeV6_truncated palette w h os bpi declLen payload hdl hshort
  · intro version os w h palette declLen payload hver hos hw hh hpc hdl hshort
    simp only [List.mem_cons, List.not_mem_nil, or_false] at hver
    rcases hver with rfl | rfl
    · rw [decompress_mkContainer 2 os w h palette _ (by decide) hos hw hh hpc,
        if_neg (by decide), if_neg (by decide), if_neg (by decide),
        if_neg (by decide)]
      exact decodeV2_truncated palette palette.length w h os declLen payload
        hdl hshort
    · rw [decompress_mkContainer 4 os w h palette _ (by decide) hos hw hh hpc,
        if_neg (by decide), if_neg (by decide), if_neg (by decide),
        if_pos rfl]
      exact decodeV4_truncated os declLen payload hdl hshort

theorem claim_C8_decompress_error_handling_witness :
    decompress [0] = .error "Not a CMPT365 file" ∧
    decompress (magicBytes ++ [9]) = .error "Unsupported CMPT365 version" ∧
    decompress (mkContainer 3 0 1 1 [] (1 :: (toBytesBE 4 2 ++ [0]))) =
      .error "Corrupt file: truncated payload" ∧
    decompress (mkContainer 4 0 1 1 [] (toBytesBE 4 2 ++ [0])) =
      .error "Corrupt file: truncated payload" :=
  ⟨claim_C8_decompress_error_handling.1 [0] (by decide),
   claim_C8_decompress_error_handling.2.1 (magicBytes ++ [9]) 9 (by decide)
     rfl (by decide),
   claim_C8_decompress_error_handling.2.2.1 3 0 1 1 [] 1 2 [0] (by decide)
     (by decide) (by decide) (by decide) (by decide) (by decide) (by decide),
   claim_C8_decompress_error_handling.2.2.2 4 0 1 1 [] 2 [0] (by decide)
     (by decide) (by decide) (by decide) (by decide) (by decide) (by decide)⟩

/-! ## Claim C7: the BMP parser -/
theorem except_bind_ok {α β : Type} (x : Except String α)
    (f : α → Except String β) (b : β) (h : (x >>= f) = .ok b) :
    ∃ a, x = .ok a ∧ f a = .ok b := by
  cases x with
  | error e =>
      dsimp [Bind.bind, Except.bind] at h
      exact Except.noConfusion h
  | ok a =>
      dsimp [Bind.bind, Except.bind] at h
      exact ⟨a, rfl, h⟩

/-- Shape of a successful `mapM` over `Except`: elementwise success. -/
theorem mapM_ok_spec {α β : Type} (f : α → Except String β) :
    ∀ (xs : List α) (l : List β), xs.mapM f = .ok l →
      l.length = xs.length ∧
      ∀ i x, xs.get? i = some x → ∃ y, l.get? i = some y ∧ f x = .ok y := by
  intro xs
  induction xs with
  | nil =>
      intro l hok
      rw [List.mapM_nil] at hok
      injection hok with h2
      subst h2
      refine ⟨rfl, ?_⟩
      intro i x hx
      simp at hx
  | cons a as ih =>
      intro l hok
      rw [List.mapM_cons] at hok
      obtain ⟨y, hy, hrest⟩ := except_bind_ok _ _ _ hok
      obtain ⟨ys, hys, hpure⟩ := except_bind_ok _ _ _ hrest
      injection hpure with h2
      subst h2
      obtain ⟨hlen, hall⟩ := ih ys hys
      refine ⟨by simp [hlen], ?_⟩
      intro i x hx
      cases i with
      | zero =>
          rw [List.get?_cons_zero] at hx
          injection hx with hx2
          subst hx2
          exact ⟨y, rfl, hy⟩
      | succ i =>
          rw [List.get?_cons_succ] at hx
          rw [List.get?_cons_succ]
          exact hall i x hx

theorem mapM_range_ok {β : Type} (f : ℕ → Except String β) (n : ℕ)
    (l : List β) (hok : (List.range n).mapM f = .ok l) :
    l.length = n ∧ ∀ r, r < n → ∃ y, l.get? r = some y ∧ f r = .ok y := by
  obtain ⟨hlen, hall⟩ := mapM_ok_spec f (List.range n) l hok
  exact ⟨by simpa using hlen, fun r hr => hall r r (List.get?_range hr)⟩

/-- **C7.** The BMP decoder: the row stride is the 4-byte-aligned ceiling of
`bpp*width` bits; a successful row loop reads image row `r` from the stored
row `absH-1-r` when the height sign says bottom-up and from stored row `r`
otherwise, each at `rowSize` stride; 24-bpp pixels are three bytes reordered
from B,G,R to (R,G,B); 8-bpp reads one byte as a color-table index; 4-bpp
uses the high nibble for even columns and the low one for odd columns; 1-bpp
uses one bit per pixel MSB-first; and a successful `parseBMP` parses its
rows exactly with the header's fields, bottom-up iff the signed height is
positive. -/
theorem claim_C7_bmp_decoder :
    (∀ bpp width : ℕ, bmpRowSize bpp width % 4 = 0 ∧
      bpp * width ≤ 8 * bmpRowSize bpp width ∧
      8 * bmpRowSize bpp width < bpp * width + 32) ∧
    (∀ (data : List ℕ) (bpp offset rowSize width absH : ℕ)
        (bottomUp : Bool) (ct : List Pixel) (rows : List (List Pixel)),
      parseRows data bpp offset rowSize width absH bottomUp ct = .ok rows →
      rows.length = absH ∧ ∀ r, r < absH → ∃ row, rows.get? r = some row ∧
        parseRowPixels data bpp
          (offset + (if bottomUp then (absH - r - 1) * rowSize
            else r * rowSize)) width ct = .ok row) ∧
    (∀ (data : List ℕ) (rowStart width : ℕ) (ct : List Pixel)
        (row : List Pixel),
      parseRowPixels data 24 rowStart width ct = .ok row →
      row.length = width ∧ ∀ col, col < width → ∃ bB gG rR : ℕ,
        (data.drop (rowStart + col * 3)).take 3 = [bB, gG, rR] ∧
        row.get? col = some (rR, gG, bB)) ∧
    (∀ (data : List ℕ) (rowStart width : ℕ) (ct : List Pixel)
        (row : List Pixel),
      parseRowPixels data 8 rowStart width ct = .ok row →
      row.length = width ∧ ∀ col, col < width → ∃ ci : ℕ, ∃ p : Pixel,
        data.get? (rowStart + col) = some ci ∧ ct.get? ci = some p ∧
        row.get? col = some p) ∧
    (∀ (data : List ℕ) (rowStart width : ℕ) (ct : List Pixel)
        (row : List Pixel),
      parseRowPixels data 4 rowStart width ct = .ok row →
      row.length = width ∧ ∀ col, col < width → ∃ b : ℕ, ∃ p : Pixel,
        data.get? (rowStart + col / 2) = some b ∧
        ct.get? (if col % 2 = 0 then b / 16 else b % 16) = some p ∧
        row.get? col = some p) ∧
    (∀ (data : List ℕ) (rowStart width : ℕ) (ct : List Pixel)
        (row : List Pixel),
      parseRowPixels data 1 rowStart width ct = .ok row →
      row.length = width ∧ ∀ col, col < width → ∃ b : ℕ, ∃ p : Pixel,
        data.get? (rowStart + col / 8) = some b ∧
        ct.get? (b / 2 ^ (7 - col % 8) % 2) = some p ∧
        row.get? col = some p) ∧
    (∀ (data : List ℕ) (res : BMPResult), parseBMP data = .ok res →
      res.bpp = fromBytesLE ((data.drop 28).take 2) ∧
      res.width = fromBytesLE ((data.drop 18).take 4) ∧
      res.height = heightFromBytesLE ((data.drop 22).take 4) ∧
      res.dataOffset = fromBytesLE ((data.drop 10).take 4) ∧
      parseRows data res.bpp res.dataOffset (bmpRowSize res.bpp res.width)
        res.width res.height.natAbs (decide (0 < res.height))
        res.colorTable = .ok res.pixelData) := by
  refine ⟨?_, ?_, ?_, ?_, ?_, ?_, ?_⟩
  · intro bpp width
    simp only [bmpRowSize]
    generalize bpp * width = n
    omega
  · intro data bpp offset rowSize width absH bottomUp ct rows hok
    rw [parseRows] at hok
    obtain ⟨hlen, hall⟩ := mapM_range_ok _ _ _ hok
    exact ⟨hlen, fun r hr => hall r hr⟩
  · intro data rowStart width ct row hok
    rw [parseRowPixels, if_pos rfl] at hok
    obtain ⟨hlen, hall⟩ := mapM_range_ok _ _ _ hok
    refine ⟨hlen, fun col hcol => ?_⟩
    obtain ⟨y, hy, hfy⟩ := hall col hcol
    rcases h3 : (data.drop (rowStart + col * 3)).take 3 with
      - | ⟨bB, - | ⟨gG, - | ⟨rR, - | ⟨z, zs⟩⟩⟩⟩
    · rw [h3] at hfy
      exact Except.noConfusion hfy
    · rw [h3] at hfy
      exact Except.noConfusion hfy
    · rw [h3] at hfy
      exact Except.noConfusion hfy
    · rw [h3] at hfy
      injection hfy with h2
      refine ⟨bB, gG, rR, rfl, ?_⟩
      rw [hy, ← h2]
    · rw [h3] at hfy
      exact Except.noConfusion hfy
  · intro data rowStart width ct row hok
    rw [parseRowPixels, if_neg (by decide), if_pos rfl] at hok
    obtain ⟨hlen, hall⟩ := mapM_range_ok _ _ _ hok
    refine ⟨hlen, fun col hcol => ?_⟩
    obtain ⟨y, hy, hfy⟩ := hall col hcol
    rcases hci : data.get? (rowStart + col) with - | ci
    · rw [hci] at hfy
      exact Except.noConfusion hfy
    · rw [hci] at hfy
      dsimp only at hfy
      rcases hp : ct.get? ci with - | p
      · rw [hp] at hfy
        exact Except.noConfusion hfy
      · rw [hp] at hfy
        injection hfy with h2
        refine ⟨ci, p, rfl, hp, ?_⟩
        rw [hy, ← h2]
  · intro data rowStart width ct row hok
    rw [parseRowPixels, if_neg (by decide), if_neg (by decide),
      if_pos rfl] at hok
    obtain ⟨hlen, hall⟩ := mapM_range_ok _ _ _ hok
    refine ⟨hlen, fun col hcol => ?_⟩
    obtain ⟨y, hy, hfy⟩ := hall col hcol
    rcases hci : data.get? (rowStart + col / 2) with - | b
    · rw [hci] at hfy
      exact Except.noConfusion hfy
    · rw [hci] at hfy
      dsimp only at hfy
      rcases hp : ct.get? (if col % 2 = 0 then b / 16 else b % 16) with - | p
      · rw [hp] at hfy
        exact Except.noConfusion hfy
      · rw [hp] at hfy
        injection hfy with h2
        refine ⟨b, p, rfl, hp, ?_⟩
        rw [hy, ← h2]
  · intro data rowStart width ct row hok
    rw [parseRowPixels, if_neg (by decide), if_neg (by decide),
      if_neg (by decide), if_pos rfl] at hok
    obtain ⟨hlen, hall⟩ := mapM_range_ok _ _ _ hok
    refine ⟨hlen, fun col hcol => ?_⟩
    obtain ⟨y, hy, hfy⟩ := hall col hcol
    rcases hci : data.get? (rowStart + col / 8) with - | b
    · rw [hci] at hfy
      exact Except.noConfusion hfy
    · rw [hci] at hfy
      dsimp only at hfy
      rcases hp : ct.get? (b / 2 ^ (7 - col % 8) % 2) with - | p
      · rw [hp] at hfy
        exact Except.noConfusion hfy
      · rw [hp] at hfy
        injection hfy with h2
        refine ⟨b, p, rfl, hp, ?_⟩
        rw [hy, ← h2]
  · intro data res hok
    rw [parseBMP] at hok
    split at hok
    · exact Except.noConfusion hok
    · rcases hct : (if fromBytesLE ((data.drop 28).take 2) ∈
          ([1, 4, 8] : List ℕ) then
          readColorTable data 0 (2 ^ fromBytesLE ((data.drop 28).take 2))
        else .ok []) with e | colorTable
      · rw [hct] at hok
        exact Except.noConfusion hok
      · rw [hct] at hok
        dsimp only at hok
        rcases hrows : parseRows data (fromBytesLE ((data.drop 28).take 2))
            (fromBytesLE ((data.drop 10).take 4))
            (bmpRowSize (fromBytesLE ((data.drop 28).take 2))
              (fromBytesLE ((data.drop 18).take 4)))
            (fromBytesLE ((data.drop 18).take 4))
            (heightFromBytesLE ((data.drop 22).take 4)).natAbs
            (decide (0 < heightFromBytesLE ((data.drop 22).take 4)))
            colorTable with e | rows
        · rw [hrows] at hok
          exact Except.noConfusion hok
        · rw [hrows] at hok
          dsimp only at hok
          injection hok with h2
          subst h2
          exact ⟨rfl, rfl, rfl, rfl, hrows⟩

theorem claim_C7_bmp_decoder_witness :
    c7Res.bpp = fromBytesLE ((c7Bmp.drop 28).take 2) ∧
    c7Res.width = fromBytesLE ((c7Bmp.drop 18).take 4) ∧
    c7Res.height = heightFromBytesLE ((c7Bmp.drop 22).take 4) ∧
    c7Res.dataOffset = fromBytesLE ((c7Bmp.drop 10).take 4) ∧
    parseRows c7Bmp c7Res.bpp c7Res.dataOffset
      (bmpRowSize c7Res.bpp c7Res.width) c7Res.width c7Res.height.natAbs
      (decide (0 < c7Res.height)) c7Res.colorTable = .ok c7Res.pixelData :=
  claim_C7_bmp_decoder.2.2.2.2.2.2 c7Bmp c7Res rfl

/-! ## Claim C1: the full round trip -/
theorem bitLen_pos {n : ℕ} (hn : 1 ≤ n) : 1 ≤ bitLen n := by
  by_contra h
  have h0 : bitLen n = 0 := by omega
  have hlt := lt_two_pow_bitLen n
  rw [h0, pow_zero] at hlt
  omega

theorem bytesPerIndex_pos (pc : ℕ) : bytesPerIndex pc ≠ 0 := by
  rw [bytesPerIndex]
  split
  · exact one_ne_zero
  · have h1 : 1 ≤ max 1 ((bitLen (pc - 1) + 7) / 8) := le_max_left _ _
    omega

theorem le_two_pow_bytesPerIndex (pc : ℕ) : pc ≤ 2 ^ (8 * bytesPerIndex pc) := by
  rw [bytesPerIndex]
  split
  · next h =>
      calc pc ≤ 1 := h
        _ ≤ 2 ^ (8 * 1) := by norm_num
  · next h =>
      have h1 : bitLen (pc - 1) ≤ 8 * ((bitLen (pc - 1) + 7) / 8) := by omega
      have h2 : (bitLen (pc - 1) + 7) / 8 ≤ max 1 ((bitLen (pc - 1) + 7) / 8) :=
        le_max_right _ _
      calc pc = (pc - 1) + 1 := by omega
        _ ≤ 2 ^ bitLen (pc - 1) := lt_two_pow_bitLen (pc - 1)
        _ ≤ 2 ^ (8 * max 1 ((bitLen (pc - 1) + 7) / 8)) :=
            Nat.pow_le_pow_right (by norm_num) (by omega)

theorem bitsPerIndex_pos (pc : ℕ) : 1 ≤ bitsPerIndex pc := by
  rw [bitsPerIndex]
  split
  · exact le_rfl
  · next h => exact bitLen_pos (by omega)

theorem le_two_pow_bitsPerIndex (pc : ℕ) : pc ≤ 2 ^ bitsPerIndex pc := by
  rw [bitsPerIndex]
  split
  · next h =>
      calc pc ≤ 1 := h
        _ ≤ 2 ^ 1 := by norm_num
  · next h =>
      calc pc = (pc - 1) + 1 := by omega
        _ ≤ 2 ^ bitLen (pc - 1) := lt_two_pow_bitLen (pc - 1)

/-- Every index of the stream is a valid palette position. -/
theorem indexStream_lt (symbols : List Pixel) :
    ∀ i ∈ indexStream symbols, i < (buildPalette symbols).1.length := by
  intro i hi
  rw [indexStream] at hi
  obtain ⟨p, hp, rfl⟩ := List.mem_map.mp hi
  have inv := buildPalette_inv symbols
  have hsome : ((buildPalette symbols).2 p).isSome :=
    (inv.isSome_iff p).2 ((inv.mem_iff p).2 hp)
  obtain ⟨j, hj⟩ := Option.isSome_iff_exists.1 hsome
  rw [hj]
  obtain ⟨hlt, -⟩ := List.getElem?_eq_some.1 (inv.lookup p j hj)
  simpa using hlt

/-- Looking every index back up in the palette recovers the symbol
stream. -/
theorem map_pixelOf_indexStream (symbols : List Pixel) :
    (indexStream symbols).map (pixelOf (buildPalette symbols).1) = symbols := by
  rw [indexStream, List.map_map]
  have hpt : ∀ p ∈ symbols,
      (pixelOf (buildPalette symbols).1 ∘
        fun q => ((buildPalette symbols).2 q).getD 0) p = id p := by
    intro p hp
    have hlk := buildPalette_lookup_mem hp
    obtain ⟨hlt, hget⟩ := List.getElem?_eq_some.1 hlk
    dsimp only [Function.comp, id]
    rw [pixelOf, if_pos hlt, List.getD_eq_getElem?_getD,
      List.getElem?_eq_getElem hlt, Option.getD_some, hget]
  rw [List.map_congr_left hpt, List.map_id]

theorem rawIndicesPayload_length (k : ℕ) (indices : List ℕ) :
    (rawIndicesPayload k indices).length = k * indices.length := by
  induction indices with
  | nil => simp [rawIndicesPayload]
  | cons i rest ih =>
      rw [rawIndicesPayload] at ih ⊢
      simp only [List.map_cons, List.flatten_cons, List.length_append,
        toBytesBE_length, ih, List.length_cons]
      ring

theorem decodeChunksAux_flatten (k : ℕ) (hk : k ≠ 0) :
    ∀ (indices : List ℕ) (fuel : ℕ), indices.length ≤ fuel →
      (∀ i ∈ indices, i < 256 ^ k) →
      decodeChunksAux k fuel (indices.map (toBytesBE k)).flatten = indices := by
  intro indices
  induction indices with
  | nil =>
      intro fuel _ _
      cases fuel with
      | zero => rfl
      | succ f => rfl
  | cons i rest ih =>
      intro fuel hfuel hbound
      obtain ⟨f, rfl⟩ : ∃ f, fuel = f + 1 := by
        cases fuel with
        | zero => simp at hfuel
        | succ f => exact ⟨f, rfl⟩
      have hflat : ((i :: rest).map (toBytesBE k)).flatten =
          toBytesBE k i ++ (rest.map (toBytesBE k)).flatten := by
        simp
      rcases hcons : toBytesBE k i ++ (rest.map (toBytesBE k)).flatten with
        - | ⟨x, xs⟩
      · have hlen0 : (toBytesBE k i ++
            (rest.map (toBytesBE k)).flatten).length = 0 := by
          rw [hcons]
          rfl
        rw [List.length_append, toBytesBE_length] at hlen0
        omega
      · rw [hflat, hcons, decodeChunksAux, ← hcons]
        have htk : (toBytesBE k i ++ (rest.map (toBytesBE k)).flatten).take k =
            toBytesBE k i := List.take_left' (toBytesBE_length k i)
        have hdk : (toBytesBE k i ++ (rest.map (toBytesBE k)).flatten).drop k =
            (rest.map (toBytesBE k)).flatten := List.drop_left' (toBytesBE_length k i)
        rw [htk, hdk,
          fromBytesBE_toBytesBE_of_lt (hbound i (List.mem_cons_self i rest)),
          ih f (by simp only [List.length_cons] at hfuel; omega)
            (fun j hj => hbound j (List.mem_cons_of_mem i hj))]

/-- Fixed-width big-endian chunk decoding inverts the raw-indices payload. -/
theorem decodeChunks_rawIndicesPayload (k : ℕ) (hk : k ≠ 0) (indices : List ℕ)
    (hbound : ∀ i ∈ indices, i < 256 ^ k) :
    decodeChunks k (rawIndicesPayload k indices) = indices := by
  rw [decodeChunks, rawIndicesPayload]
  refine decodeChunksAux_flatten k hk indices _ ?_ hbound
  have hlen := rawIndicesPayload_length k indices
  rw [rawIndicesPayload] at hlen
  rw [hlen]
  calc indices.length = 1 * indices.length := (one_mul _).symm
    _ ≤ k * indices.length := Nat.mul_le_mul_right _ (by omega)

theorem flatten_length_rect (grid : List (List Pixel)) (w : ℕ)
    (hrect : ∀ row ∈ grid, row.length = w) :
    grid.flatten.length = grid.length * w := by
  induction grid with
  | nil => simp
  | cons row rest ih =>
      rw [List.flatten_cons, List.length_append,
        hrect row (List.mem_cons_self row rest),
        ih (fun r hr => hrect r (List.mem_cons_of_mem row hr)), List.length_cons]
      ring

theorem map_range_getD (row : List Pixel) :
    (List.range row.length).map (fun c => row.getD c (0, 0, 0)) = row := by
  apply List.ext_getElem
  · simp
  · intro i h1 h2
    simp only [List.getElem_map, List.getElem_range, List.getD_eq_getElem?_getD,
      List.getElem?_eq_getElem h2, Option.getD_some]

theorem reshapeRow_exact (row tail : List Pixel) :
    reshapeRow (row ++ tail) 0 row.length = row := by
  rw [reshapeRow]
  have hpt : ∀ c ∈ List.range row.length,
      (if 0 + c < (row ++ tail).length then
        (row ++ tail).getD (0 + c) (0, 0, 0) else (0, 0, 0)) =
        row.getD c (0, 0, 0) := by
    intro c hc
    rw [List.mem_range] at hc
    rw [zero_add, if_pos (by rw [List.length_append]; omega),
      List.getD_eq_getElem?_getD, List.getElem?_append_left hc,
      ← List.getD_eq_getElem?_getD]
  rw [List.map_congr_left hpt, map_range_getD]

theorem reshapeRow_append (row tail : List Pixel) (off w' w0 : ℕ)
    (hw : row.length = w0) :
    reshapeRow (row ++ tail) (w0 + off) w' = reshapeRow tail off w' := by
  subst hw
  rw [reshapeRow, reshapeRow]
  apply List.map_congr_left
  intro c hc
  have hlen : (row ++ tail).length = row.length + tail.length :=
    List.length_append _ _
  by_cases hcc : off + c < tail.length
  · rw [if_pos (by omega), if_pos hcc, List.getD_eq_getElem?_getD,
      List.getElem?_append_right (by omega), ← List.getD_eq_getElem?_getD]
    congr 1
    omega
  · rw [if_neg (by omega), if_neg hcc]

/-- Reshaping the flattened grid with the common row width restores the
grid. -/
theorem reshape_flatten (grid : List (List Pixel)) (w : ℕ)
    (hrect : ∀ row ∈ grid, row.length = w) :
    reshape grid.flatten w grid.length = grid := by
  induction grid with
  | nil => rfl
  | cons row rest ih =>
      have hrow := hrect row (List.mem_cons_self row rest)
      have hrest : ∀ r ∈ rest, r.length = w := fun r hr =>
        hrect r (List.mem_cons_of_mem row hr)
      rw [List.flatten_cons, List.length_cons, reshape,
        List.range_succ_eq_map, List.map_cons, List.map_map]
      congr 1
      · show reshapeRow (row ++ rest.flatten) (0 * w) w = row
        rw [zero_mul, ← hrow]
        exact reshapeRow_exact row rest.flatten
      · have h2 : (List.range rest.length).map
            ((fun r => reshapeRow (row ++ rest.flatten) (r * w) w) ∘ Nat.succ) =
            reshape rest.flatten w rest.length := by
          rw [reshape]
          apply List.map_congr_left
          intro r hr
          dsimp only [Function.comp]
          rw [Nat.succ_mul, Nat.add_comm]
          exact reshapeRow_append row rest.flatten (r * w) w w hrow
        rw [h2, ih hrest]

/-- The sliding-window LZ round trip (shared helper). -/
theorem lz_roundtrip (data : List ℕ) :
    lzDecompress (lzCompress data) = .ok data := by
  rw [lzDecompress_eq_decLoop, lzCompress]
  by_cases h : data = []
  · subst h
    rfl
  · rw [if_neg h]
    exact (lzLoop_spec data data.length 0 (fun _ => []) (Nat.zero_le _)
      (by omega) (fun k p hp => absurd hp (List.not_mem_nil p))).1

theorem compressContainer_three (grid : List (List Pixel)) (orig : List ℕ) :
    compressContainer grid orig 3 = mkContainer 3 orig.length (gridWidth grid)
      grid.length (gridPalette grid)
      (gridBpi grid ::
        (toBytesBE 4 (gridRawPayload grid).length ++ gridRawPayload grid)) := by
  simp [compressContainer, mkContainer, List.append_assoc]

theorem compressContainer_five (grid : List (List Pixel)) (orig : List ℕ) :
    compressContainer grid orig 5 = mkContainer 5 orig.length (gridWidth grid)
      grid.length (gridPalette grid)
      (gridBitspi grid ::
        (toBytesBE 4 (gridPackedPayload grid).length ++
          gridPackedPayload grid)) := by
  simp [compressContainer, mkContainer, List.append_assoc]

theorem compressContainer_six (grid : List (List Pixel)) (orig : List ℕ) :
    compressContainer grid orig 6 = mkContainer 6 orig.length (gridWidth grid)
      grid.length (gridPalette grid)
      (gridBpi grid ::
        (toBytesBE 4 (gridV6Payload grid).length ++ gridV6Payload grid)) := by
  simp [compressContainer, mkContainer, List.append_assoc]

theorem compressContainer_four (grid : List (List Pixel)) (orig : List ℕ) :
    compressContainer grid orig 4 = mkContainer 4 orig.length (gridWidth grid)
      grid.length [] (toBytesBE 4 orig.length ++ orig) := by
  simp [compressContainer, mkContainer, List.append_assoc]

theorem finalVersion_cases (grid : List (List Pixel)) (orig : List ℕ) :
    finalVersion grid orig = 3 ∨ finalVersion grid orig = 5 ∨
    finalVersion grid orig = 6 ∨ finalVersion grid orig = 4 := by
  rw [finalVersion]
  split
  · exact Or.inr (Or.inr (Or.inr rfl))
  · obtain ⟨hmem, -, -⟩ := minBySnd_spec
      [(5, candSize grid orig 5), (6, candSize grid orig 6),
        (4, candSize grid orig 4)] (3, candSize grid orig 3)
    rw [chosenPair]
    rcases hmem with h | h
    · rw [h]
      exact Or.inl rfl
    · simp only [List.mem_cons, List.not_mem_nil, or_false] at h
      rcases h with h | h | h
      · rw [h]
        exact Or.inr (Or.inl rfl)
      · rw [h]
        exact Or.inr (Or.inr (Or.inl rfl))
      · rw [h]
        exact Or.inr (Or.inr (Or.inr rfl))

/-- **C1.** Decompressing the container `compress` writes returns the exact
pixel grid together with the recorded width, height and original size, for
every non-empty rectangular byte grid — through whichever version the
selector chose.  (The header fields must fit their four-byte slots; when the
selector falls back to the version-4 raw embed, the original bytes must
parse back to the grid they came from, which is how `compress` is always
invoked.) -/
theorem claim_C1_round_trip (grid : List (List Pixel)) (orig : List ℕ)
    (hne : 0 < grid.length)
    (hrect : ∀ row ∈ grid, row.length = gridWidth grid)
    (hbytes : ∀ row ∈ grid, ∀ p ∈ row, p.1 < 256 ∧ p.2.1 < 256 ∧ p.2.2 < 256)
    (hos : orig.length < 2 ^ 32) (hw : gridWidth grid < 2 ^ 32)
    (hh : grid.length < 2 ^ 32)
    (hp3 : (gridRawPayload grid).length < 2 ^ 32)
    (hp5 : (gridPackedPayload grid).length < 2 ^ 32)
    (hp6 : (gridV6Payload grid).length < 2 ^ 32)
    (hcoh : finalVersion grid orig = 4 → ∃ r : BMPResult,
      parseBMP orig = .ok r ∧ r.pixelData = grid ∧
      r.width = gridWidth grid ∧ r.height.natAbs = grid.length) :
    decompress (compress grid orig) =
      .ok (grid, gridWidth grid, grid.length, orig.length) := by
  have hbytes' : ∀ p ∈ flattenGrid grid,
      p.1 < 256 ∧ p.2.1 < 256 ∧ p.2.2 < 256 := by
    intro p hp
    rw [flattenGrid] at hp
    obtain ⟨row, hrow, hpr⟩ := List.mem_flatten.mp hp
    exact hbytes row hrow p hpr
  have hpc : (gridPalette grid).length < 2 ^ 32 :=
    lt_of_le_of_lt (buildPalette_length_le (flattenGrid grid) hbytes')
      (by norm_num)
  have hidxlt : ∀ i ∈ gridIndices grid, i < (gridPalette grid).length :=
    indexStream_lt (flattenGrid grid)
  have hflatlen : (flattenGrid grid).length = grid.length * gridWidth grid :=
    flatten_length_rect grid _ hrect
  have hidxlen : (gridIndices grid).length = grid.length * gridWidth grid := by
    calc (gridIndices grid).length = (flattenGrid grid).length :=
          indexStream_length _
      _ = _ := hflatlen
  have hmap : (gridIndices grid).map (pixelOf (gridPalette grid)) =
      flattenGrid grid := map_pixelOf_indexStream (flattenGrid grid)
  have hreshape : reshape (flattenGrid grid) (gridWidth grid) grid.length =
      grid := reshape_flatten grid (gridWidth grid) hrect
  have hbpi0 : gridBpi grid ≠ 0 := bytesPerIndex_pos _
  have hmod : (gridRawPayload grid).length % gridBpi grid = 0 := by
    rw [show (gridRawPayload grid).length =
      gridBpi grid * (gridIndices grid).length from
        rawIndicesPayload_length _ _]
    exact Nat.mul_mod_right _ _
  have hchunks : decodeChunks (gridBpi grid) (gridRawPayload grid) =
      gridIndices grid := by
    refine decodeChunks_rawIndicesPayload _ hbpi0 _ ?_
    intro i hi
    have h2 := le_two_pow_bytesPerIndex (gridPalette grid).length
    have h3 : (2 : ℕ) ^ (8 * bytesPerIndex (gridPalette grid).length) =
        256 ^ bytesPerIndex (gridPalette grid).length := by
      rw [show (256 : ℕ) = 2 ^ 8 by norm_num, ← pow_mul]
    exact lt_of_lt_of_le (hidxlt i hi) (h3 ▸ h2)
  rcases finalVersion_cases grid orig with hv | hv | hv | hv
  · -- version 3
    rw [compress, hv, compressContainer_three,
      decompress_mkContainer 3 _ _ _ _ _ (by decide) hos hw hh hpc,
      if_pos rfl,
      decodeV3_mkTail (gridPalette grid) (gridWidth grid) grid.length
        orig.length (gridBpi grid) (gridRawPayload grid) hp3 hbpi0 hmod,
      hchunks, hmap, hreshape]
  · -- version 5
    have hcodes : ∀ c ∈ gridIndices grid, c < 2 ^ gridBitspi grid := fun c hc =>
      lt_of_lt_of_le (hidxlt c hc) (le_two_pow_bitsPerIndex _)
    have hcomm : gridWidth grid * grid.length = grid.length * gridWidth grid :=
      Nat.mul_comm _ _
    have hunp : unpackBitsMSB (gridBitspi grid)
        (gridWidth grid * grid.length) (gridPackedPayload grid) =
        gridIndices grid := by
      rw [hcomm, ← hidxlen]
      exact unpackBitsMSB_packBitsMSB (gridBitspi grid) (bitsPerIndex_pos _)
        (gridIndices grid) hcodes
    have hnotshort : ¬ (unpackBitsMSB (gridBitspi grid)
        (gridWidth grid * grid.length) (gridPackedPayload grid)).length <
        gridWidth grid * grid.length := by
      rw [hunp, hidxlen, hcomm]
      exact lt_irrefl _
    have htake : (unpackBitsMSB (gridBitspi grid)
        (gridWidth grid * grid.length) (gridPackedPayload grid)).take
        (gridWidth grid * grid.length) = gridIndices grid := by
      rw [hunp, hcomm, ← hidxlen, List.take_length]
    rw [compress, hv, compressContainer_five,
      decompress_mkContainer 5 _ _ _ _ _ (by decide) hos hw hh hpc,
      if_neg (by decide), if_pos rfl,
      decodeV5_mkTail (gridPalette grid) (gridWidth grid) grid.length
        orig.length (gridBitspi grid) (gridPackedPayload grid) hp5 hnotshort,
      htake, hmap, hreshape]
  · -- version 6
    have hlz : lzDecompress (gridV6Payload grid) = .ok (gridRawPayload grid) :=
      lz_roundtrip (gridRawPayload grid)
    rw [compress, hv, compressContainer_six,
      decompress_mkContainer 6 _ _ _ _ _ (by decide) hos hw hh hpc,
      if_neg (by decide), if_neg (by decide), if_pos rfl,
      decodeV6_mkTail (gridPalette grid) (gridWidth grid) grid.length
        orig.length (gridBpi grid) (gridV6Payload grid) (gridRawPayload grid)
        hp6 hlz hbpi0 hmod,
      hchunks, hmap, hreshape]
  · -- version 4 (raw embed)
    obtain ⟨r, hparse, hpd, hwid, hht⟩ := hcoh hv
    rw [compress, hv, compressContainer_four,
      decompress_mkContainer 4 _ _ _ _ _ (by decide) hos hw hh (by norm_num),
      if_neg (by decide), if_neg (by decide), if_neg (by decide), if_pos rfl]
    have hlen4 : (toBytesBE 4 orig.length ++ orig).length = 4 + orig.length := by
      rw [List.length_append, toBytesBE_length]
    have htake4 : fromBytesBE ((toBytesBE 4 orig.length ++ orig).take 4) =
        orig.length := readBE4_toBytes hos orig
    rw [decodeV4, hlen4, htake4, drop_toBytes4, List.take_length,
      if_neg (by omega), if_neg (lt_irrefl _), hparse]
    dsimp only
    rw [hpd, hwid, hht]

theorem claim_C1_round_trip_witness :
    decompress (compress c1Grid c1Orig) =
      .ok (c1Grid, gridWidth c1Grid, c1Grid.length, c1Orig.length) :=
  claim_C1_round_trip c1Grid c1Orig (by decide) (by decide) (by decide)
    (by decide) (by decide) (by decide) (by decide) (by decide) (by decide)
    (fun hv => absurd hv (by decide))

end BMPViewer

